import Mathlib

/-!
Shallow embedding, over exact rationals, of the zonotope / constrained-zonotope
neural-network range-analysis code (`zonotope.py`, `constrained_zonotope.py`,
`network.py`, `abstract.py`).  Vectors are `List ℚ` and matrices are
`List (List ℚ)` in row-major order; numpy's `(d,)` versus `(d,1)` shape
gymnastics carry no value information and are flattened away.  Fallible
attribute accesses (Python's `AttributeError` on a missing clamp bound,
`IndexError` on an empty layer list) are modelled with `Except`.
-/

/-- A vector of `n` zeros (`np.zeros(n)`). -/
def vecZeros (n : ℕ) : List ℚ := List.replicate n 0

/-- Componentwise sum of two vectors. -/
def addV (a b : List ℚ) : List ℚ := List.zipWith (· + ·) a b

/-- Componentwise difference of two vectors. -/
def subV (a b : List ℚ) : List ℚ := List.zipWith (· - ·) a b

/-- Scalar multiple of a vector (`c * v` in numpy). -/
def scaleV (c : ℚ) (v : List ℚ) : List ℚ := v.map (fun q => c * q)

/-- Negation of a vector (`-v` in numpy). -/
def negV (v : List ℚ) : List ℚ := v.map (fun q => -q)

/-- Dot product of two vectors. -/
def dotL (a b : List ℚ) : ℚ := (List.zipWith (· * ·) a b).sum

/-- Matrix–vector product: row `i` of the result is `dotL (A i) x`. -/
def matVec (A : List (List ℚ)) (x : List ℚ) : List ℚ := A.map (fun r => dotL r x)

/-- Number of columns of a row-major matrix (`M.shape[1]` for a rectangular
numpy array). -/
def matWidth (M : List (List ℚ)) : ℕ := (M.headD []).length

/-- Matrix product: row `i` of `A·B` is the linear combination of the rows of
`B` with the entries of row `i` of `A` as coefficients (`np.dot`). -/
def matMul (A B : List (List ℚ)) : List (List ℚ) :=
  A.map (fun r => (List.zipWith scaleV r B).foldr addV (vecZeros (matWidth B)))

/-- Scalar multiple of a matrix. -/
def scaleM (c : ℚ) (M : List (List ℚ)) : List (List ℚ) := M.map (scaleV c)

/-- Row `i` of a `n × n` diagonal-style matrix whose `(i,i)` entry is `c`
and whose other entries are zero. -/
def basisRow (n i : ℕ) (c : ℚ) : List ℚ :=
  vecZeros i ++ [c] ++ vecZeros (n - 1 - i)

/-- The identity matrix `np.eye n`. -/
def eyeQ (n : ℕ) : List (List ℚ) :=
  (List.range n).map (fun i => basisRow n i 1)

/-- Sum of the absolute values of a row (`np.sum(np.abs(row))`). -/
def absSum (r : List ℚ) : ℚ := (r.map (fun q => |q|)).sum

/-- `np.floor` on one rational. -/
def floorQ (q : ℚ) : ℚ := (⌊q⌋ : ℚ)

/-- `clamp(value, min_val, max_val) = np.minimum(np.maximum(value, lo), hi)`
from `abstract.py`. -/
def clampQ (v lo hi : ℚ) : ℚ := min (max v lo) hi

/-- `np.floor` applied elementwise to a matrix. -/
def floorM (M : List (List ℚ)) : List (List ℚ) := M.map (fun r => r.map floorQ)

/-- `clamp` applied elementwise to a matrix. -/
def clampM (M : List (List ℚ)) (lo hi : ℚ) : List (List ℚ) :=
  M.map (fun r => r.map (fun q => clampQ q lo hi))

section ZonotopeDomain

/-- `Zonotope` of `zonotope.py`: generator matrix `W` (d rows, m columns)
and center vector `b` (length d). -/
structure Zonotope where
  W : List (List ℚ)
  b : List ℚ
  deriving DecidableEq, Repr, Inhabited

/-- `Zonotope.linear_transformation`: `W ← weights·W`, `b ← weights·b + biases`
(the numpy transposes only normalise shapes). -/
def Zonotope.linear_transformation (z : Zonotope) (weights : List (List ℚ))
    (biases : List ℚ) : Zonotope :=
  ⟨matMul weights z.W, addV (matVec weights z.b) biases⟩

/-- Lower bound of dimension `i` from `Zonotope.bounds` / `concretize`:
`b_i - Σ|W_i,:|`. -/
def zLower (z : Zonotope) (i : ℕ) : ℚ := z.b.getD i 0 - absSum (z.W.getD i [])

/-- Upper bound of dimension `i` from `Zonotope.bounds` / `concretize`:
`b_i + Σ|W_i,:|`. -/
def zUpper (z : Zonotope) (i : ℕ) : ℚ := z.b.getD i 0 + absSum (z.W.getD i [])

/-- `Zonotope.concretize`: the list of per-dimension interval bounds. -/
def Zonotope.concretize (z : Zonotope) : List (ℚ × ℚ) :=
  (List.range z.W.length).map (fun i => (zLower z i, zUpper z i))

/-- Slope `a = u/(u-l)` of the unstable-case ReLU relaxation
(`zonotope.py`, line 97). -/
def reluSlope (l u : ℚ) : ℚ := u / (u - l)

/-- Vertical offset `c = -u*l/(u-l)` of the unstable-case ReLU relaxation
(`zonotope.py`, line 98). -/
def reluOffset (l u : ℚ) : ℚ := -u * l / (u - l)

/-- Row `W_new[i]` of `Zonotope.abstract_ReLU` before the new noise block is
appended: zero for a dead dimension, unchanged for a stable one, scaled by
the relaxation slope in the unstable case. -/
def zReluRow (row : List ℚ) (l u : ℚ) (m : ℕ) : List ℚ :=
  if u ≤ 0 then vecZeros m
  else if 0 ≤ l then row
  else scaleV (reluSlope l u) row

/-- New-noise coefficient `W_diag[i]` of `Zonotope.abstract_ReLU`. -/
def zReluDiag (l u : ℚ) : ℚ :=
  if u ≤ 0 then 0
  else if 0 ≤ l then 0
  else reluOffset l u / 2

/-- New bias `b_new[i]` of `Zonotope.abstract_ReLU`. -/
def zReluBias (l u b : ℚ) : ℚ :=
  if u ≤ 0 then 0
  else if 0 ≤ l then b
  else reluSlope l u * b + reluOffset l u / 2

/-- `Zonotope.abstract_ReLU`: per dimension, the branch on the concretized
bounds `[l,u]`; the final generator is `hstack((W_new, diag(W_diag)))`. -/
def Zonotope.abstract_ReLU (z : Zonotope) : Zonotope :=
  let d := z.W.length
  let m := matWidth z.W
  ⟨(List.range d).map (fun i =>
      zReluRow (z.W.getD i []) (zLower z i) (zUpper z i) m ++
        basisRow d i (zReluDiag (zLower z i) (zUpper z i))),
   (List.range z.b.length).map (fun i =>
      if i < d then zReluBias (zLower z i) (zUpper z i) (z.b.getD i 0) else 0)⟩

/-- Slope `a_param` of the three mixed clamp branches of
`Zonotope.abstract_clamp` (the same closed forms appear in
`constrained_zonotope.py`). -/
def clampSlope (l u C : ℚ) : ℚ :=
  if l < 0 ∧ C ≤ u then min (C / (C - l)) (C / u)
  else if l < 0 ∧ u ≤ C then reluSlope l u
  else (C - l) / (u - l)

/-- Offset `b_param` of the three mixed clamp branches. -/
def clampShift (l u C : ℚ) : ℚ :=
  if l < 0 ∧ C ≤ u then (1 - clampSlope l u C) * C
  else if l < 0 ∧ u ≤ C then reluOffset l u
  else (C - l) * (1 - clampSlope l u C)

/-- Row `W_new[i]` of `Zonotope.abstract_clamp` before the new noise block. -/
def zClampRow (row : List ℚ) (l u C : ℚ) (m : ℕ) : List ℚ :=
  if u ≤ 0 then vecZeros m
  else if C ≤ l then vecZeros m
  else if 0 ≤ l ∧ u ≤ C then row
  else scaleV (clampSlope l u C) row

/-- New-noise coefficient of `Zonotope.abstract_clamp`. -/
def zClampDiag (l u C : ℚ) : ℚ :=
  if u ≤ 0 then 0
  else if C ≤ l then 0
  else if 0 ≤ l ∧ u ≤ C then 0
  else clampShift l u C / 2

/-- New bias of `Zonotope.abstract_clamp`. -/
def zClampBias (l u C b : ℚ) : ℚ :=
  if u ≤ 0 then 0
  else if C ≤ l then C
  else if 0 ≤ l ∧ u ≤ C then b
  else clampSlope l u C * b + clampShift l u C / 2

/-- `Zonotope.abstract_clamp`: the five-branch clamp transformer. -/
def Zonotope.abstract_clamp (z : Zonotope) (C : ℚ) : Zonotope :=
  let d := z.W.length
  let m := matWidth z.W
  ⟨(List.range d).map (fun i =>
      zClampRow (z.W.getD i []) (zLower z i) (zUpper z i) C m ++
        basisRow d i (zClampDiag (zLower z i) (zUpper z i) C)),
   (List.range z.b.length).map (fun i =>
      if i < d then zClampBias (zLower z i) (zUpper z i) C (z.b.getD i 0) else 0)⟩

/-- `Zonotope.abstract_floor`: `W ← hstack((W, 0.5·eye(d)))`,
`b ← b - 0.5`. -/
def Zonotope.abstract_floor (z : Zonotope) : Zonotope :=
  ⟨List.zipWith (· ++ ·) z.W (scaleM (1/2) (eyeQ z.W.length)),
   z.b.map (fun q => q - 1/2)⟩

end ZonotopeDomain

section ConstrainedZonotopeDomain

/-- The two constraint-encoding variants of `constrained_zonotope.py`.  The
source compares the `version` argument against the string `'standard'` and
treats every other value as the rectangle encoding. -/
inductive CZVersion where
  | standard
  | rectangle
  deriving DecidableEq, Repr, Inhabited

/-- `ConstrainedZonotope` of `constrained_zonotope.py`: generator matrix,
center and the stored constraints `(A_k, b_k)`.  Each stored row keeps the
length it had when appended (`m + i + 1` at the time); `final_concretize`
re-pads it. -/
structure CZonotope where
  W : List (List ℚ)
  b : List ℚ
  constraints : List (List ℚ × ℚ)
  deriving DecidableEq, Repr, Inhabited

/-- `ConstrainedZonotope.linear_transformation`: same update as the plain
zonotope; the constraint store is untouched. -/
def CZonotope.linear_transformation (cz : CZonotope) (weights : List (List ℚ))
    (biases : List ℚ) : CZonotope :=
  ⟨matMul weights cz.W, addV (matVec weights cz.b) biases, cz.constraints⟩

/-- Lower bound of dimension `i` from `ConstrainedZonotope.concretize`
(the cheap constraint-ignoring L1 bound). -/
def czLower (cz : CZonotope) (i : ℕ) : ℚ := cz.b.getD i 0 - absSum (cz.W.getD i [])

/-- Upper bound of dimension `i` from `ConstrainedZonotope.concretize`. -/
def czUpper (cz : CZonotope) (i : ℕ) : ℚ := cz.b.getD i 0 + absSum (cz.W.getD i [])

/-- Final row `i` of `ConstrainedZonotope.abstract_ReLU`.  At loop iteration
`i` the generator has been padded to width `m+i`, so the branch row is built
from `row ++ zeros i`, one new-noise entry is appended, and the later
iterations extend the row with `d-1-i` more zero columns. -/
def czReluRowAt (ver : CZVersion) (m d i : ℕ) (row : List ℚ) (l u : ℚ) : List ℚ :=
  (if u ≤ 0 then vecZeros (m + i) ++ [0]
   else if 0 ≤ l then (row ++ vecZeros i) ++ [0]
   else match ver with
     | .standard => scaleV (reluSlope l u) (row ++ vecZeros i) ++ [reluOffset l u / 2]
     | .rectangle => vecZeros (m + i) ++ [u / 2]) ++ vecZeros (d - 1 - i)

/-- New bias of dimension `i` of `ConstrainedZonotope.abstract_ReLU`. -/
def czReluBiasAt (ver : CZVersion) (b l u : ℚ) : ℚ :=
  if u ≤ 0 then 0
  else if 0 ≤ l then b
  else match ver with
    | .standard => reluSlope l u * b + reluOffset l u / 2
    | .rectangle => u / 2

/-- The constraints `ConstrainedZonotope.abstract_ReLU` appends while
processing dimension `i` (none for a stable dimension).  `old_row` is
`hstack((W_i, 0))` at the current width `m+i`. -/
def czReluConsAt (ver : CZVersion) (i : ℕ) (row : List ℚ) (b l u : ℚ) :
    List (List ℚ × ℚ) :=
  if u ≤ 0 then []
  else if 0 ≤ l then []
  else
    let oldRow := (row ++ vecZeros i) ++ [0]
    let a := reluSlope l u
    let c := reluOffset l u
    match ver with
    | .standard =>
        let newRow := scaleV a (row ++ vecZeros i) ++ [c / 2]
        let newBias := a * b + c / 2
        [(newRow, newBias), (subV newRow oldRow, newBias - b)]
    | .rectangle =>
        let newRow := vecZeros (i + row.length) ++ [u / 2]
        let newBias := u / 2
        [(subV newRow oldRow, newBias - b),
         (subV (scaleV a oldRow) newRow, a * b + c - newBias)]

/-- `ConstrainedZonotope.abstract_ReLU`.  Constraints are appended in
ascending dimension order. -/
def CZonotope.abstract_ReLU (cz : CZonotope) (ver : CZVersion) : CZonotope :=
  let d := cz.W.length
  let m := matWidth cz.W
  ⟨(List.range d).map (fun i =>
      czReluRowAt ver m d i (cz.W.getD i []) (czLower cz i) (czUpper cz i)),
   (List.range cz.b.length).map (fun i =>
      if i < d then czReluBiasAt ver (cz.b.getD i 0) (czLower cz i) (czUpper cz i) else 0),
   cz.constraints ++
     ((List.range d).map (fun i =>
        czReluConsAt ver i (cz.W.getD i []) (cz.b.getD i 0) (czLower cz i)
          (czUpper cz i))).flatten⟩

/-- Final row `i` of `ConstrainedZonotope.abstract_clamp` (same padding
discipline as the ReLU transformer, five branches). -/
def czClampRowAt (ver : CZVersion) (m d i : ℕ) (row : List ℚ) (l u C : ℚ) :
    List ℚ :=
  (if u ≤ 0 then vecZeros (m + i) ++ [0]
   else if C ≤ l then vecZeros (m + i) ++ [0]
   else if 0 ≤ l ∧ u ≤ C then (row ++ vecZeros i) ++ [0]
   else match ver with
     | .standard => scaleV (clampSlope l u C) (row ++ vecZeros i) ++ [clampShift l u C / 2]
     | .rectangle =>
        if l < 0 ∧ C ≤ u then vecZeros (m + i) ++ [C / 2]
        else if l < 0 ∧ u ≤ C then vecZeros (m + i) ++ [u / 2]
        else vecZeros (m + i) ++ [(C - l) / 2]) ++ vecZeros (d - 1 - i)

/-- New bias of dimension `i` of `ConstrainedZonotope.abstract_clamp`. -/
def czClampBiasAt (ver : CZVersion) (b l u C : ℚ) : ℚ :=
  if u ≤ 0 then 0
  else if C ≤ l then C
  else if 0 ≤ l ∧ u ≤ C then b
  else match ver with
    | .standard => clampSlope l u C * b + clampShift l u C / 2
    | .rectangle =>
        if l < 0 ∧ C ≤ u then C / 2
        else if l < 0 ∧ u ≤ C then u / 2
        else (C + l) / 2

/-- The constraints `ConstrainedZonotope.abstract_clamp` appends while
processing dimension `i`, mirroring the source's per-branch lists (including
the `C_ub - l >= u` sub-split of the first mixed branch in the standard
encoding). -/
def czClampConsAt (ver : CZVersion) (i : ℕ) (row : List ℚ) (b l u C : ℚ) :
    List (List ℚ × ℚ) :=
  if u ≤ 0 then []
  else if C ≤ l then []
  else if 0 ≤ l ∧ u ≤ C then []
  else
    let oldRow := (row ++ vecZeros i) ++ [0]
    if l < 0 ∧ C ≤ u then
      match ver with
      | .standard =>
          let a := clampSlope l u C
          let newRow := scaleV a (row ++ vecZeros i) ++ [clampShift l u C / 2]
          let newBias := a * b + clampShift l u C / 2
          if C - l ≥ u then
            [(newRow, newBias), (negV newRow, C - newBias),
             (subV newRow (scaleV (C / u) oldRow), newBias - (C / u) * b)]
          else
            [(newRow, newBias), (negV newRow, C - newBias),
             (subV (scaleV (C / (C - l)) oldRow) newRow,
              (C / (C - l)) * b - (l * C) / (C - l) - newBias)]
      | .rectangle =>
          let newRow := vecZeros (i + row.length) ++ [C / 2]
          let newBias := C / 2
          [(subV (scaleV (C / (C - l)) oldRow) newRow,
            (C / (C - l)) * b - (l * C) / (C - l) - newBias),
           (subV newRow (scaleV (C / u) oldRow), newBias - (C / u) * b)]
    else if l < 0 ∧ u ≤ C then
      let a := reluSlope l u
      let c := reluOffset l u
      match ver with
      | .standard =>
          let newRow := scaleV a (row ++ vecZeros i) ++ [c / 2]
          let newBias := a * b + c / 2
          [(newRow, newBias), (subV newRow oldRow, newBias - b)]
      | .rectangle =>
          let newRow := vecZeros (i + row.length) ++ [u / 2]
          let newBias := u / 2
          [(subV newRow oldRow, newBias - b),
           (subV (scaleV a oldRow) newRow, a * b + c - newBias)]
    else
      let a := clampSlope l u C
      let bp := clampShift l u C
      match ver with
      | .standard =>
          let newRow := scaleV a (row ++ vecZeros i) ++ [bp / 2]
          let newBias := a * b + bp / 2
          [(subV oldRow newRow, b - newBias), (negV newRow, C - newBias)]
      | .rectangle =>
          let newRow := vecZeros (i + row.length) ++ [(C - l) / 2]
          let newBias := (C + l) / 2
          [(subV oldRow newRow, b - newBias),
           (subV newRow (scaleV a oldRow), newBias - a * b - bp)]

/-- `ConstrainedZonotope.abstract_clamp`. -/
def CZonotope.abstract_clamp (cz : CZonotope) (C : ℚ) (ver : CZVersion) :
    CZonotope :=
  let d := cz.W.length
  let m := matWidth cz.W
  ⟨(List.range d).map (fun i =>
      czClampRowAt ver m d i (cz.W.getD i []) (czLower cz i) (czUpper cz i) C),
   (List.range cz.b.length).map (fun i =>
      if i < d then czClampBiasAt ver (cz.b.getD i 0) (czLower cz i) (czUpper cz i) C else 0),
   cz.constraints ++
     ((List.range d).map (fun i =>
        czClampConsAt ver i (cz.W.getD i []) (cz.b.getD i 0) (czLower cz i)
          (czUpper cz i) C)).flatten⟩

/-- `ConstrainedZonotope.abstract_floor`: like the zonotope version; the
constraint store is untouched. -/
def CZonotope.abstract_floor (cz : CZonotope) : CZonotope :=
  ⟨List.zipWith (· ++ ·) cz.W (scaleM (1/2) (eyeQ cz.W.length)),
   cz.b.map (fun q => q - 1/2),
   cz.constraints⟩

end ConstrainedZonotopeDomain

section LayerNetwork

/-- Activation tags of `network.py`.  The source stores plain strings and
tests `== 'relu'` / `== 'clamp'`; every other string (`'id'`, `'identity'`)
behaves as the identity, so one constructor stands for all of them. -/
inductive Activation where
  | relu
  | clamp
  | identity
  deriving DecidableEq, Repr, Inhabited

/-- Python exceptions that the propagation methods can raise. -/
inductive PyErr where
  | attributeError
  | indexError
  deriving DecidableEq, Repr, Inhabited

/-- `Layer` of `network.py`.  The optional clamp bounds are `Option ℚ`:
an attribute that was never stored is `none`. -/
structure Layer where
  weights : List (List ℚ)
  biases : List ℚ
  activation : Activation
  lower_bound : Option ℚ
  upper_bound : Option ℚ
  deriving DecidableEq, Repr, Inhabited

/-- The truthiness guard of `Layer.__init__`: `if lower_bound: self.lower_bound
= lower_bound` stores nothing for `None`, `0` or `0.0` (all falsy). -/
def truthyOpt (o : Option ℚ) : Option ℚ :=
  match o with
  | none => none
  | some q => if q = 0 then none else some q

/-- `Layer.__init__` with optional bounds (default `None`). -/
def mkLayer (w : List (List ℚ)) (b : List ℚ) (act : Activation)
    (lb ub : Option ℚ) : Layer :=
  ⟨w, b, act, truthyOpt lb, truthyOpt ub⟩

/-- The activation step of `Layer.propagate` on one concrete vector:
`relu` takes `np.maximum(0, ·)`; `clamp` takes
`clamp(np.floor(·), self.lower_bound, self.upper_bound)` and raises
`AttributeError` when a bound attribute was never stored. -/
def Layer.applyAct (L : Layer) (v : List ℚ) : Except PyErr (List ℚ) :=
  match L.activation with
  | .relu => .ok (v.map (fun q => max 0 q))
  | .clamp =>
      match L.lower_bound, L.upper_bound with
      | some lo, some hi => .ok (v.map (fun q => clampQ (floorQ q) lo hi))
      | _, _ => .error .attributeError
  | .identity => .ok v

/-- `Layer.propagate`: affine map then activation. -/
def Layer.propagate (L : Layer) (x : List ℚ) : Except PyErr (List ℚ) :=
  L.applyAct (addV (matVec L.weights x) L.biases)

/-- `linear_interval_propagation` of `abstract.py`: endpointwise affine map
(as written in the source, with no sign split on the weights). -/
def linear_interval_propagation (box : List (ℚ × ℚ)) (W : List (List ℚ))
    (b : List ℚ) : List (ℚ × ℚ) :=
  List.zip (addV (matVec W (box.map Prod.fst)) b)
    (addV (matVec W (box.map Prod.snd)) b)

/-- `relu_interval_propagation` of `abstract.py`. -/
def relu_interval_propagation (box : List (ℚ × ℚ)) : List (ℚ × ℚ) :=
  box.map (fun p => (max p.1 0, max p.2 0))

/-- `clamp_interval_propagation` of `abstract.py`. -/
def clamp_interval_propagation (box : List (ℚ × ℚ)) (lo hi : ℚ) :
    List (ℚ × ℚ) :=
  box.map (fun p => (max p.1 lo, min p.2 hi))

/-- `Layer.propagate_box`: interval propagation through the layer (`clamp`
floors the interval endpoints first and needs both stored bounds). -/
def Layer.propagate_box (L : Layer) (box : List (ℚ × ℚ)) :
    Except PyErr (List (ℚ × ℚ)) :=
  let box1 := linear_interval_propagation box L.weights L.biases
  match L.activation with
  | .relu => .ok (relu_interval_propagation box1)
  | .clamp =>
      match L.lower_bound, L.upper_bound with
      | some lo, some hi =>
          .ok (clamp_interval_propagation (box1.map (fun p => (floorQ p.1, floorQ p.2))) lo hi)
      | _, _ => .error .attributeError
  | .identity => .ok box1

/-- `Layer.propagate_vertices`: the affine map and activation applied to each
vertex. -/
def Layer.propagate_vertices (L : Layer) (vs : List (List ℚ)) :
    Except PyErr (List (List ℚ)) :=
  vs.mapM (fun v => L.applyAct (addV (matVec L.weights v) L.biases))

/-- `Layer.propagate_zonotope`: linear transformation, then the activation's
abstract transformer (`clamp` composes `abstract_floor` with
`abstract_clamp(self.upper_bound)`). -/
def Layer.propagate_zonotope (L : Layer) (z : Zonotope) :
    Except PyErr Zonotope :=
  let z1 := z.linear_transformation L.weights L.biases
  match L.activation with
  | .relu => .ok z1.abstract_ReLU
  | .clamp =>
      match L.upper_bound with
      | some hi => .ok (z1.abstract_floor.abstract_clamp hi)
      | none => .error .attributeError
  | .identity => .ok z1

/-- `Layer.propagate_constrained_zonotope`. -/
def Layer.propagate_constrained_zonotope (L : Layer) (cz : CZonotope)
    (ver : CZVersion) : Except PyErr CZonotope :=
  let cz1 := cz.linear_transformation L.weights L.biases
  match L.activation with
  | .relu => .ok (cz1.abstract_ReLU ver)
  | .clamp =>
      match L.upper_bound with
      | some hi => .ok ((cz1.abstract_floor).abstract_clamp hi ver)
      | none => .error .attributeError
  | .identity => .ok cz1

/-- `abstract_to_vertices` of `abstract.py`: `itertools.product` over the
per-dimension endpoint pairs, first coordinate varying slowest. -/
def abstract_to_vertices (box : List (ℚ × ℚ)) : List (List ℚ) :=
  box.foldr (fun p acc => [p.1, p.2].flatMap (fun x => acc.map (x :: ·))) [[]]

/-- `concretize_to_box` of `abstract.py`: componentwise min and max over a
set of vertices. -/
def concretize_to_box (vs : List (List ℚ)) : List (ℚ × ℚ) :=
  match vs with
  | [] => []
  | v :: rest =>
      rest.foldl (fun acc w =>
        List.zipWith (fun p c => (min p.1 c, max p.2 c)) acc w)
        (v.map (fun c => (c, c)))

/-- `abstract_to_zonotope` of `abstract.py`: midpoint center and diagonal
half-range generator. -/
def abstract_to_zonotope (box : List (ℚ × ℚ)) : Zonotope :=
  ⟨(List.range box.length).map (fun i =>
      basisRow box.length i (((box.getD i (0,0)).2 - (box.getD i (0,0)).1) / 2)),
   box.map (fun p => (p.1 + p.2) / 2)⟩

/-- `abstract_to_constrained_zonotope` of `abstract.py`: same lift, empty
constraint store. -/
def abstract_to_constrained_zonotope (box : List (ℚ × ℚ)) : CZonotope :=
  ⟨(List.range box.length).map (fun i =>
      basisRow box.length i (((box.getD i (0,0)).2 - (box.getD i (0,0)).1) / 2)),
   box.map (fun p => (p.1 + p.2) / 2),
   []⟩

/-- `Network` of `network.py`: the layer list and the `quantized` flag
(`False` at construction). -/
structure Network where
  layers : List Layer
  quantized : Bool
  deriving DecidableEq, Repr, Inhabited

/-- `Network.propagate`: fold `Layer.propagate` over the layers. -/
def Network.propagate (n : Network) (x : List ℚ) : Except PyErr (List ℚ) :=
  n.layers.foldlM (fun v L => L.propagate v) x

/-- Fold of `Layer.propagate_zonotope` over a layer list. -/
def foldZono (ls : List Layer) (z : Zonotope) : Except PyErr Zonotope :=
  ls.foldlM (fun z L => L.propagate_zonotope z) z

/-- Fold of `Layer.propagate_constrained_zonotope` over a layer list. -/
def foldCZono (ls : List Layer) (cz : CZonotope) (ver : CZVersion) :
    Except PyErr CZonotope :=
  ls.foldlM (fun cz L => L.propagate_constrained_zonotope cz ver) cz

/-- The shared preamble of `Network.propagate_zonotope` and
`Network.propagate_constrained_zonotope` for a quantized network: layer 0 is
applied exactly to the box's vertices, and the result re-boxed. -/
def vertexPreprocess (L : Layer) (box : List (ℚ × ℚ)) :
    Except PyErr (List (ℚ × ℚ)) := do
  let vs ← L.propagate_vertices (abstract_to_vertices box)
  pure (concretize_to_box vs)

/-- `Network.propagate_zonotope`: lift the box (after the exact layer-0 step
when the network is quantized), fold the layers, concretize.  Returns
`(out_box, zonotope)` like the source. -/
def Network.propagate_zonotope (n : Network) (box : List (ℚ × ℚ)) :
    Except PyErr (List (ℚ × ℚ) × Zonotope) :=
  match n.quantized with
  | false =>
      (foldZono n.layers (abstract_to_zonotope box)).map (fun z => (z.concretize, z))
  | true =>
      match n.layers with
      | [] => .error PyErr.indexError
      | L0 :: rest =>
          (vertexPreprocess L0 box).bind (fun box1 =>
            (foldZono rest (abstract_to_zonotope box1)).map (fun z => (z.concretize, z)))

/-- `Network.propagate_constrained_zonotope` up to (but not including) the
`final_concretize` call: the constrained zonotope handed to the bound
extraction. -/
def Network.propagate_constrained_zonotope (n : Network) (box : List (ℚ × ℚ))
    (ver : CZVersion) : Except PyErr CZonotope :=
  match n.quantized with
  | false => foldCZono n.layers (abstract_to_constrained_zonotope box) ver
  | true =>
      match n.layers with
      | [] => .error PyErr.indexError
      | L0 :: rest =>
          (vertexPreprocess L0 box).bind (fun box1 =>
            foldCZono rest (abstract_to_constrained_zonotope box1) ver)

end LayerNetwork

section FinalConcretize

/-- IEEE-style special values that `final_concretize` can place in its
output array (`float('-inf')` / `float('+inf')` on solver failure). -/
inductive FloatVal where
  | fin (q : ℚ)
  | negInf
  | posInf
  deriving DecidableEq, Repr, Inhabited

/-- The outcome of one `scipy.optimize.minimize` call as
`final_concretize` consumes it: the `success` flag and the objective value
`fun`. -/
structure MinimizeResult where
  success : Bool
  fval : ℚ
  deriving DecidableEq, Repr, Inhabited

/-- Lines 90–96 of `constrained_zonotope.py`: for each of the `d = W.shape[0]`
dimensions `i`, given the outcomes of the minimize call on the objective
(`res1 i`) and on its negation (`res2 i`), the reported bounds are
`res_1.fun if res_1.success else float('-inf')` and
`-res_2.fun if res_2.success else float('+inf')`.  The SLSQP solver itself
is external (scipy); its outcomes are the oracle arguments. -/
def finalBoundsFromResults (cz : CZonotope) (res1 res2 : ℕ → MinimizeResult) :
    List (FloatVal × FloatVal) :=
  (List.range cz.W.length).map (fun i =>
    (if (res1 i).success then .fin (res1 i).fval else .negInf,
     if (res2 i).success then .fin (-(res2 i).fval) else .posInf))

/-- A noise vector inside the unit box `[-1,1]^m` (the `bounds_eps` box that
`final_concretize` passes to the solver).  Noise vectors are total functions
so that rows of different lengths can be paired with one vector. -/
def boxMemF (m : ℕ) (x : ℕ → ℚ) : Prop :=
  ∀ i, i < m → -1 ≤ x i ∧ x i ≤ 1

/-- Dot product of a row with a noise vector. -/
def dotF : List ℚ → (ℕ → ℚ) → ℚ
  | [], _ => 0
  | a :: t, x => a * x 0 + dotF t (fun i => x (i + 1))

/-- `np.pad(row, (0, n - len(row)))`: extend a row with zeros to length `n`
(never truncating). -/
def padTo (n : ℕ) (r : List ℚ) : List ℚ := r ++ vecZeros (n - r.length)

/-- The longest stored constraint row (`max_len` in `final_concretize`;
`0` when the store is empty). -/
def maxRowLen (cons : List (List ℚ × ℚ)) : ℕ :=
  (cons.map (fun p => p.1.length)).foldr max 0

/-- The padding target `max(m, max_len)` of `final_concretize`. -/
def padWidth (cz : CZonotope) : ℕ :=
  max (matWidth cz.W) (maxRowLen cz.constraints)

/-- The `'ineq'` constraint list `final_concretize` hands to
`scipy.optimize.minimize`.  The loop

    for j in range(K): constraints.append({'type': 'ineq',
        'fun': lambda x: A[j] @ x.T + b_vals[j]})

builds `K` lambdas that all close over the loop variable `j`; when the solver
later evaluates them, `j` has its post-loop value `K - 1`, so every entry is
the last stored constraint (zero-padded).  scipy's `'ineq'` convention is
`fun(x) >= 0`, i.e. `a·x + c >= 0`. -/
def solverConstraints (cz : CZonotope) : List (List ℚ × ℚ) :=
  match cz.constraints.getLast? with
  | none => []
  | some last => List.replicate cz.constraints.length (padTo (padWidth cz) last.1, last.2)

/-- The feasible set of the optimization problem `final_concretize` actually
constructs: the unit box intersected with every constraint the solver sees. -/
def codeFeasible (cz : CZonotope) (x : ℕ → ℚ) : Prop :=
  boxMemF (matWidth cz.W) x ∧ ∀ p ∈ solverConstraints cz, 0 ≤ dotF p.1 x + p.2

/-- Modelled from the spec: the feasible set in the spec's words — noise in
`[-1,1]^m` and, for every stored pair `(a_k, c_k)` zero-padded to the current
generator width, `a_k·eps <= c_k`.  Used only for the refinement comparison
with `codeFeasible`. -/
def specFeasible (cz : CZonotope) (x : ℕ → ℚ) : Prop :=
  boxMemF (matWidth cz.W) x ∧
    ∀ p ∈ cz.constraints, dotF (padTo (matWidth cz.W) p.1) x ≤ p.2

/-- The objective `alpha_i·eps + beta_i` of dimension `i`. -/
def czObjective (cz : CZonotope) (i : ℕ) (x : ℕ → ℚ) : ℚ :=
  dotF (cz.W.getD i []) x + cz.b.getD i 0

/-- The objective values over the feasible set the code constructs.
`scipy.optimize.minimize` is external; per the spec (§4.2, "solve two convex
programs"), the solver is modelled as exact, so the value
`final_concretize` reports for dimension `i` on success is the least /
greatest element of this set. -/
def codeVals (cz : CZonotope) (i : ℕ) : Set ℚ :=
  {v | ∃ x, codeFeasible cz x ∧ v = czObjective cz i x}

/-- Modelled from the spec: the objective values over the spec's feasible
set. -/
def specVals (cz : CZonotope) (i : ℕ) : Set ℚ :=
  {v | ∃ x, specFeasible cz x ∧ v = czObjective cz i x}

end FinalConcretize

section Quantize

/-- `QuantizationConfig`: the named fractional-bit counts and saturation
bounds consumed by `Network.quantize`. -/
structure QConfig where
  Fw : ℤ
  Fb : ℤ
  Fin : ℤ
  Fh : ℤ
  Clb_in : ℚ
  Cub_in : ℚ
  Clb_w : ℚ
  Cub_w : ℚ
  Clb_b : ℚ
  Cub_b : ℚ
  Cub_h : ℚ
  deriving DecidableEq, Repr, Inhabited

/-- Replace the element at index `i` (out-of-range indices leave the list
unchanged, like an in-range-only Python index assignment). -/
def modifyAt : List α → ℕ → (α → α) → List α
  | [], _, _ => []
  | a :: t, 0, f => f a :: t
  | a :: t, i + 1, f => a :: modifyAt t i f

/-- Map with the element's index. -/
def mapIdxGo (f : ℕ → α → α) : ℕ → List α → List α
  | _, [] => []
  | i, a :: t => f i a :: mapIdxGo f (i + 1) t

/-- One quantization update of a layer's weights:
`2^e * clamp(floor(W * 2^Fw), Clb_w, Cub_w)`. -/
def quantW (cfg : QConfig) (e : ℤ) (W : List (List ℚ)) : List (List ℚ) :=
  scaleM ((2 : ℚ) ^ e) (clampM (floorM (scaleM ((2 : ℚ) ^ cfg.Fw) W)) cfg.Clb_w cfg.Cub_w)

/-- One quantization update of a layer's biases:
`2^e * clamp(floor(b * 2^Fb), Clb_b, Cub_b)`. -/
def quantB (cfg : QConfig) (e : ℤ) (b : List ℚ) : List ℚ :=
  scaleV ((2 : ℚ) ^ e) ((scaleV ((2 : ℚ) ^ cfg.Fb) b).map (fun q =>
    clampQ (floorQ q) cfg.Clb_b cfg.Cub_b))

/-- The retagging step: a `relu` layer becomes `clamp` with
`lower_bound = 0` and `upper_bound = Cub_h` (direct attribute assignment,
no truthiness guard). -/
def retagLayer (cfg : QConfig) (L : Layer) : Layer :=
  if L.activation = .relu then
    { L with activation := .clamp, lower_bound := some 0, upper_bound := some cfg.Cub_h }
  else L

/-- The quantization update applied to one layer: rescale weights and biases
with the given exponents, then retag. -/
def quantizeStep (cfg : QConfig) (e1 e2 : ℤ) (L : Layer) : Layer :=
  retagLayer cfg { L with weights := quantW cfg e1 L.weights, biases := quantB cfg e2 L.biases }

/-- Weight rescale exponent for the first original layer
(`Fh - Fw - Fin` for version 1, `-Fw - Fin` otherwise). -/
def expW0 (cfg : QConfig) (version : ℕ) : ℤ :=
  if version = 1 then cfg.Fh - cfg.Fw - cfg.Fin else -cfg.Fw - cfg.Fin

/-- Bias rescale exponent for the first and middle layers. -/
def expB0 (cfg : QConfig) (version : ℕ) : ℤ :=
  if version = 1 then cfg.Fh - cfg.Fb else -cfg.Fb

/-- Weight rescale exponent for the middle layers. -/
def expWmid (cfg : QConfig) (version : ℕ) : ℤ :=
  if version = 1 then cfg.Fh - cfg.Fw else -cfg.Fw

/-- Weight rescale exponent for the last layer
(`-Fw - (len-2)*Fh` for version 1). -/
def expWlast (cfg : QConfig) (version : ℕ) (len : ℕ) : ℤ :=
  if version = 1 then -cfg.Fw - ((len : ℤ) - 2) * cfg.Fh else -cfg.Fw

/-- Bias rescale exponent for the last layer. -/
def expBlast (cfg : QConfig) (version : ℕ) (len : ℕ) : ℤ :=
  if version = 1 then -cfg.Fb - ((len : ℤ) - 2) * cfg.Fh else -cfg.Fb

/-- `Network.quantize` models the in-place rewrite of `network.py` lines
94–167: layer 0 is rescaled and retagged, then the middle layers
`1..len-2`, then layer `len-1` (for a single-layer network this hits the
same layer twice, exactly as the source does), and the input-quantization
layer `Layer(2^Fin * I, 0, 'clamp', Clb_in, Cub_in)` is prepended (through
`Layer.__init__`, so its truthiness guard applies).  The method mutates
`self` and ends with `return self`: the value returned here is also the
post-call state of the original network object. -/
def Network.quantize (n : Network) (cfg : QConfig) (version : ℕ) : Network :=
  let len := n.layers.length
  let ls1 := modifyAt n.layers 0 (quantizeStep cfg (expW0 cfg version) (expB0 cfg version))
  let ls2 := mapIdxGo (fun i L =>
    if 1 ≤ i ∧ i + 1 < len then
      quantizeStep cfg (expWmid cfg version) (expB0 cfg version) L
    else L) 0 ls1
  let ls3 := modifyAt ls2 (len - 1)
    (quantizeStep cfg (expWlast cfg version len) (expBlast cfg version len))
  let n0 := matWidth (ls3.headD default).weights
  let inputLayer := mkLayer (scaleM ((2 : ℚ) ^ cfg.Fin) (eyeQ n0)) (vecZeros n0)
    .clamp (some cfg.Clb_in) (some cfg.Cub_in)
  ⟨inputLayer :: ls3, true⟩

end Quantize

section ExampleInputs

/-- A one-layer clamp network: weights `[[1]]`, bias `[0]`, activation
`'clamp'` with `lower_bound = -1`, `upper_bound = 4`. -/
def exN1 : Network := ⟨[mkLayer [[1]] [0] .clamp (some (-1)) (some 4)], false⟩

/-- A constrained zonotope with generator `[[1]]`, center `[0]` and the two
stored constraints `([-1], 0)` and `([1], 0)`. -/
def exCZ3 : CZonotope := ⟨[[1]], [0], [([-1], 0), ([1], 0)]⟩

/-- A two-layer network: two identical ReLU neurons (`W = [[1],[1]]`,
`b = [0,0]`) followed by their difference (`W = [[1,-1]]`, `b = [0]`). -/
def exN4 : Network := ⟨[mkLayer [[1],[1]] [0,0] .relu none none,
                        mkLayer [[1,-1]] [0] .identity none none], false⟩

/-- The constrained zonotope `exN4` produces on the box `[(-1,3)]` with the
rectangle encoding. -/
def exCZ4 : CZonotope :=
  ⟨[[0, 3/2, -3/2]], [0],
   [([-2, 3/2], 1/2), ([3/2, -3/2], 0), ([-2, 0, 3/2], 1/2), ([3/2, 0, -3/2], 0)]⟩

/-- A two-layer ReLU network used for the quantization claims. -/
def exN5 : Network := ⟨[mkLayer [[1,0],[0,1]] [1,2] .relu none none,
                        mkLayer [[1,1]] [0] .identity none none], false⟩

/-- A quantization configuration with all fractional-bit counts 0 and
saturation bounds `±100` (`Cub_h = 100`). -/
def exCfg : QConfig := ⟨0, 0, 0, 0, -100, 100, -100, 100, -100, 100, 100⟩

/-- A one-layer identity network. -/
def exN7 : Network := ⟨[mkLayer [[1]] [0] .identity none none], false⟩

/-- The constrained zonotope `exN7` produces on the box `[(0,2)]`. -/
def exCZ7 : CZonotope := ⟨[[1]], [1], []⟩

end ExampleInputs

/-- C1: the abstract propagation is NOT sound as claimed.  For the one-layer
clamp network `exN1` and the input box `[(7/2, 21/2)]`, the point `x = 4`
lies in the box and `Network.propagate` maps it (exactly) to `4`, but
`Network.propagate_zonotope` returns the output interval
`[15/32, 51/16]`, which does not contain `4`: the mixed clamp branch
`0 <= l <= C_ub < u` of `abstract_clamp` drops the chord intercept
`l*(1-a)` from the new bias, so the enclosure misses the true output. -/
theorem C1_unsound_clamp_abstraction :
    Network.propagate exN1 [4] = .ok [4] ∧
    Network.propagate_zonotope exN1 [(7/2, 21/2)] =
      .ok ([((15 : ℚ)/32, (51 : ℚ)/16)], ⟨[[21/32, 3/32, 39/64]], [117/64]⟩) ∧
    ¬ ((15 : ℚ)/32 ≤ 4 ∧ (4 : ℚ) ≤ 51/16) := by
  refine ⟨?_, ?_, by norm_num⟩
  · norm_num [Network.propagate, Layer.propagate, Layer.applyAct, exN1, mkLayer,
      truthyOpt, addV, matVec, dotL, clampQ, floorQ, List.foldlM]
  · norm_num [Network.propagate_zonotope, Except.map, exN1, mkLayer, truthyOpt, foldZono,
      List.foldlM, Layer.propagate_zonotope, Zonotope.linear_transformation,
      Zonotope.abstract_floor, Zonotope.abstract_clamp, Zonotope.concretize,
      matMul, matVec, matWidth, dotL, addV, scaleV, scaleM, eyeQ, basisRow,
      vecZeros, abstract_to_zonotope, zLower, zUpper, absSum, zClampRow,
      zClampDiag, zClampBias, clampSlope, clampShift, reluSlope, reluOffset,
      List.range_succ, floorQ, abs_of_nonneg, abs_of_nonpos]

/-- C2: when the SLSQP solve for a dimension does not converge
(`success = false`), `final_concretize` silently reports `float('-inf')`
(lower) and `float('+inf')` (upper) for that dimension — it returns plain
numbers with no per-dimension failure status.  Other dimensions' bounds are
still reported. -/
theorem C2_failure_becomes_infinity :
    finalBoundsFromResults ⟨[[1, 0], [0, 1]], [0, 0], []⟩
      (fun i => if i = 0 then ⟨false, 0⟩ else ⟨true, 5⟩)
      (fun i => if i = 0 then ⟨false, 0⟩ else ⟨true, -7⟩) =
      [(.negInf, .posInf), (.fin 5, .fin 7)] := by
  norm_num [finalBoundsFromResults, List.range_succ]

theorem getD_range_map {α : Type} (f : ℕ → α) (n i : ℕ) (d : α) (h : i < n) :
    ((List.range n).map f).getD i d = f i := by
  rw [List.getD_eq_getElem?_getD, List.getElem?_map, List.getElem?_range h,
    Option.map_some', Option.getD_some]

/-- C6 (counterexample): on the zonotope with generator `[[15/2]]` and center
`[5/2]` — whose dimension-0 bounds are exactly `l = -5`, `u = 10` — the
unstable ReLU relaxation has slope `2/3` and vertical offset `10/3`, not
`100/3` as the claim's concrete instance states; the new bias is `10/3`,
not `a*b + (100/3)/2`. -/
theorem C6_offset_is_ten_thirds :
    zLower ⟨[[15/2]], [5/2]⟩ 0 = -5 ∧ zUpper ⟨[[15/2]], [5/2]⟩ 0 = 10 ∧
    Zonotope.abstract_ReLU ⟨[[15/2]], [5/2]⟩ = ⟨[[5, 5/3]], [10/3]⟩ ∧
    reluSlope (-5) 10 = 2/3 ∧ reluOffset (-5) 10 = 10/3 ∧
    ¬ (reluOffset (-5) 10 = 100/3) ∧
    ¬ ((10 : ℚ)/3 = reluSlope (-5) 10 * (5/2) + (100/3)/2) := by
  norm_num [zLower, zUpper, absSum, Zonotope.abstract_ReLU, Zonotope.mk.injEq,
    List.range_succ, zReluRow, zReluDiag, zReluBias, reluSlope, reluOffset,
    basisRow, vecZeros, scaleV, matWidth, abs_of_nonneg, abs_of_nonpos]

/-- C6 (amended): for every zonotope and every dimension `i` whose
concretized bounds satisfy `l < 0 < u`, `abstract_ReLU` produces row `i`
equal to `a` times the old row with the single new noise coefficient `c/2`
in position `i` of the appended block, and bias `a*b_i + c/2`, where
`a = u/(u-l)` and `c = -u*l/(u-l)`; for `l = -5`, `u = 10` the slope is
`2/3` and the vertical offset is `10/3` (the claim's `100/3` corrected). -/
theorem C6_unstable_relaxation (z : Zonotope) (i : ℕ)
    (hi : i < z.W.length) (hb : i < z.b.length)
    (hl : zLower z i < 0) (hu : 0 < zUpper z i) :
    (z.abstract_ReLU).W.getD i [] =
      scaleV (reluSlope (zLower z i) (zUpper z i)) (z.W.getD i []) ++
        basisRow z.W.length i (reluOffset (zLower z i) (zUpper z i) / 2) ∧
    (z.abstract_ReLU).b.getD i 0 =
      reluSlope (zLower z i) (zUpper z i) * z.b.getD i 0 +
        reluOffset (zLower z i) (zUpper z i) / 2 ∧
    reluSlope (-5) 10 = 2/3 ∧ reluOffset (-5) 10 = 10/3 := by
  refine ⟨?_, ?_, by norm_num [reluSlope], by norm_num [reluOffset]⟩
  · show ((List.range z.W.length).map _).getD i [] = _
    rw [getD_range_map _ _ _ _ hi]
    rw [zReluRow, zReluDiag, if_neg (by linarith), if_neg (by linarith),
      if_neg (by linarith), if_neg (by linarith)]
  · show ((List.range z.b.length).map _).getD i 0 = _
    rw [getD_range_map _ _ _ _ hb, if_pos hi]
    rw [zReluBias, if_neg (by linarith), if_neg (by linarith)]

/-- C6 (witness): the amended theorem applied to the concrete zonotope with
bounds `l = -5`, `u = 10` in dimension 0. -/
theorem C6_unstable_relaxation_instance :
    (Zonotope.abstract_ReLU ⟨[[15/2]], [5/2]⟩).b.getD 0 0 =
      reluSlope (zLower ⟨[[15/2]], [5/2]⟩ 0) (zUpper ⟨[[15/2]], [5/2]⟩ 0) * (5/2) +
        reluOffset (zLower ⟨[[15/2]], [5/2]⟩ 0) (zUpper ⟨[[15/2]], [5/2]⟩ 0) / 2 :=
  (C6_unstable_relaxation ⟨[[15/2]], [5/2]⟩ 0 (by norm_num) (by norm_num)
    (by norm_num [zLower, absSum, abs_of_nonneg])
    (by norm_num [zUpper, absSum, abs_of_nonneg])).2.1

theorem vecZeros_append (a b : ℕ) : vecZeros a ++ vecZeros b = vecZeros (a + b) :=
  (List.replicate_add a b (0 : ℚ)).symm

theorem basisRow_zeros {n i : ℕ} (h : i < n) : basisRow n i 0 = vecZeros n := by
  show (vecZeros i ++ [(0 : ℚ)]) ++ vecZeros (n - 1 - i) = vecZeros n
  rw [show [(0 : ℚ)] = vecZeros 1 from rfl, vecZeros_append, vecZeros_append]
  congr 1
  omega

theorem basisRow_length {n i : ℕ} (c : ℚ) (h : i < n) : (basisRow n i c).length = n := by
  simp only [basisRow, vecZeros, List.length_append, List.length_replicate,
    List.length_singleton]
  omega

theorem basisRow_getD {n i j : ℕ} {c : ℚ} (h : i < n) :
    (basisRow n i c).getD j 0 = if j = i then c else 0 := by
  rcases lt_trichotomy j i with hj | rfl | hj
  · rw [if_neg (by omega)]
    show ((vecZeros i ++ [c]) ++ vecZeros (n - 1 - i)).getD j 0 = 0
    rw [List.getD_append _ _ _ _ (by simp only [vecZeros, List.length_append, List.length_replicate, List.length_singleton]; omega),
      List.getD_append _ _ _ _ (by simp only [vecZeros, List.length_append, List.length_replicate, List.length_singleton]; omega)]
    simp [vecZeros, List.getD_eq_getElem?_getD, List.getElem?_replicate, hj]
  · rw [if_pos rfl]
    show ((vecZeros j ++ [c]) ++ vecZeros (n - 1 - j)).getD j 0 = c
    rw [List.getD_append _ _ _ _ (by simp only [vecZeros, List.length_append, List.length_replicate, List.length_singleton]; omega)]
    rw [List.getD_eq_getElem?_getD, List.getElem?_append_right (by simp [vecZeros])]
    simp [vecZeros]
  · rw [if_neg (by omega)]
    show ((vecZeros i ++ [c]) ++ vecZeros (n - 1 - i)).getD j 0 = 0
    rcases lt_or_le j ((vecZeros i ++ [c]) ++ vecZeros (n - 1 - i)).length with hlen | hlen
    · rw [List.getD_eq_getElem?_getD, List.getElem?_append_right (by simp only [vecZeros, List.length_append, List.length_replicate, List.length_singleton]; omega)]
      simp only [vecZeros, List.getD_eq_getElem?_getD, List.getElem?_replicate]
      split <;> simp
    · rw [List.getD_eq_getElem?_getD, List.getElem?_eq_none (by omega)]
      rfl

theorem scaleV_append (c : ℚ) (v w : List ℚ) :
    scaleV c (v ++ w) = scaleV c v ++ scaleV c w := List.map_append _ v w

theorem scaleV_vecZeros (c : ℚ) (n : ℕ) : scaleV c (vecZeros n) = vecZeros n := by
  simp [scaleV, vecZeros, List.map_replicate]

theorem scaleV_basisRow (a : ℚ) {n i : ℕ} (c : ℚ) :
    scaleV a (basisRow n i c) = basisRow n i (a * c) := by
  simp [basisRow, scaleV, vecZeros, List.map_replicate]

theorem scaleV_length (c : ℚ) (v : List ℚ) : (scaleV c v).length = v.length :=
  List.length_map v _

theorem getD_map {α β : Type} (f : α → β) (l : List α) (i : ℕ) (d : α)
    (d2 : β) (h : i < l.length) : (l.map f).getD i d2 = f (l.getD i d) := by
  rw [List.getD_eq_getElem?_getD, List.getElem?_map, List.getD_eq_getElem?_getD,
    List.getElem?_eq_getElem h]
  rfl

theorem getD_zipWith {α β γ : Type} (f : α → β → γ) (l1 : List α) (l2 : List β)
    (i : ℕ) (d1 : α) (d2 : β) (d3 : γ) (h1 : i < l1.length) (h2 : i < l2.length) :
    (List.zipWith f l1 l2).getD i d3 = f (l1.getD i d1) (l2.getD i d2) := by
  induction l1 generalizing l2 i with
  | nil => simp at h1
  | cons a t ih =>
      cases l2 with
      | nil => simp at h2
      | cons b s =>
          cases i with
          | zero => rfl
          | succ i => exact ih s i (by simpa using h1) (by simpa using h2)

theorem getD_mem {α : Type} (l : List α) (i : ℕ) (d : α) (h : i < l.length) :
    l.getD i d ∈ l := by
  rw [List.getD_eq_getElem?_getD, List.getElem?_eq_getElem h]
  exact List.getElem_mem h

theorem absSum_nonneg (r : List ℚ) : 0 ≤ absSum r :=
  List.sum_nonneg (by intro x hx; rcases List.mem_map.1 hx with ⟨q, _, rfl⟩; exact abs_nonneg q)

/-- C8: ReLU stable-case totality.  For any dimension `i` with concretized
bounds `l = u = 0`, `abstract_ReLU` takes the `u <= 0` (fully-negative)
branch: the branch test holds, the new row is all zeros (including the
appended noise column, whose coefficient is zero) and the new bias is zero
— the unstable branch, the only place the division `u/(u-l)` occurs, is not
taken.  Moreover, for EVERY zonotope `z'` and dimension `j` (the second
quantified pair), either a stable branch test holds or the unstable-case
denominator `u - l` is strictly positive, so no division by zero ever
occurs. -/
theorem C8_relu_stable_totality (z z' : Zonotope) (i j : ℕ)
    (hi : i < z.W.length) (hb : i < z.b.length)
    (h1 : zLower z i = 0) (h2 : zUpper z i = 0) :
    zUpper z i ≤ 0 ∧
    (z.abstract_ReLU).W.getD i [] = vecZeros (matWidth z.W + z.W.length) ∧
    (z.abstract_ReLU).b.getD i 0 = 0 ∧
    zReluDiag (zLower z i) (zUpper z i) = 0 ∧
    (zUpper z' j ≤ 0 ∨ 0 ≤ zLower z' j ∨ 0 < zUpper z' j - zLower z' j) := by
  refine ⟨le_of_eq h2, ?_, ?_, ?_, ?_⟩
  · show ((List.range z.W.length).map _).getD i [] = _
    rw [getD_range_map _ _ _ _ hi, zReluRow, zReluDiag, if_pos (le_of_eq h2),
      if_pos (le_of_eq h2), basisRow_zeros hi, vecZeros_append]
  · show ((List.range z.b.length).map _).getD i 0 = _
    rw [getD_range_map _ _ _ _ hb, if_pos hi, zReluBias, if_pos (le_of_eq h2)]
  · rw [zReluDiag, if_pos (le_of_eq h2)]
  · by_cases hu : zUpper z' j ≤ 0
    · exact Or.inl hu
    by_cases hl : 0 ≤ zLower z' j
    · exact Or.inr (Or.inl hl)
    exact Or.inr (Or.inr (by push_neg at hu hl; linarith))

/-- C8 (witness): the totality theorem at the one-dimensional zonotope with
zero generator and zero center, whose bounds are exactly `l = u = 0`. -/
theorem C8_relu_stable_totality_instance :
    zUpper (⟨[[0]], [0]⟩ : Zonotope) 0 ≤ 0 ∧
    (Zonotope.abstract_ReLU ⟨[[0]], [0]⟩).W.getD 0 [] =
      vecZeros (matWidth (⟨[[0]], [0]⟩ : Zonotope).W + 1) ∧
    (Zonotope.abstract_ReLU ⟨[[0]], [0]⟩).b.getD 0 0 = 0 ∧
    zReluDiag (zLower ⟨[[0]], [0]⟩ 0) (zUpper ⟨[[0]], [0]⟩ 0) = 0 ∧
    (zUpper (⟨[[0]], [0]⟩ : Zonotope) 0 ≤ 0 ∨ 0 ≤ zLower (⟨[[0]], [0]⟩ : Zonotope) 0 ∨
      0 < zUpper (⟨[[0]], [0]⟩ : Zonotope) 0 - zLower (⟨[[0]], [0]⟩ : Zonotope) 0) :=
  C8_relu_stable_totality ⟨[[0]], [0]⟩ ⟨[[0]], [0]⟩ 0 0 (by norm_num) (by norm_num)
    (by norm_num [zLower, absSum]) (by norm_num [zUpper, absSum])

/-- C9: both floor transformers append exactly one `0.5` noise column per
dimension (a `0.5`-scaled identity block: entry `(i, m+i)` is `1/2` and the
other appended entries are `0`), shift every center coordinate by `-1/2`,
and leave the pre-existing generator columns (indices `j < m`) unchanged;
the constrained version also leaves the constraint store untouched. -/
theorem C9_floor_transformer (z : Zonotope) (cons : List (List ℚ × ℚ))
    (m i j : ℕ) (hW : ∀ r ∈ z.W, r.length = m) (hb : z.b.length = z.W.length)
    (hi : i < z.W.length) :
    ((z.abstract_floor).W.getD i []).getD j 0 =
      (if j < m then (z.W.getD i []).getD j 0 else if j = m + i then 1/2 else 0) ∧
    (z.abstract_floor).b.getD i 0 = z.b.getD i 0 - 1/2 ∧
    ((CZonotope.abstract_floor ⟨z.W, z.b, cons⟩).W.getD i []).getD j 0 =
      (if j < m then (z.W.getD i []).getD j 0 else if j = m + i then 1/2 else 0) ∧
    (CZonotope.abstract_floor ⟨z.W, z.b, cons⟩).b.getD i 0 = z.b.getD i 0 - 1/2 ∧
    (CZonotope.abstract_floor ⟨z.W, z.b, cons⟩).constraints = cons := by
  have hie : (scaleM (1/2) (eyeQ z.W.length)).getD i [] = basisRow z.W.length i (1/2) := by
    rw [scaleM, eyeQ, List.map_map, getD_range_map _ _ _ _ hi]
    show scaleV (1/2) (basisRow z.W.length i 1) = _
    rw [scaleV_basisRow]
    norm_num
  have hrow :
      ((List.zipWith (· ++ ·) z.W (scaleM (1/2) (eyeQ z.W.length))).getD i []).getD j 0 =
      (if j < m then (z.W.getD i []).getD j 0 else if j = m + i then 1/2 else 0) := by
    rw [getD_zipWith (· ++ ·) z.W (scaleM (1/2) (eyeQ z.W.length)) i [] [] []
      hi (by simp [scaleM, eyeQ]; exact hi)]
    rw [hie]
    have hlen : (z.W.getD i []).length = m := hW _ (getD_mem z.W i [] hi)
    rcases lt_or_le j m with hj | hj
    · rw [if_pos hj, List.getD_append _ _ _ _ (by omega)]
    · rw [if_neg (by omega), List.getD_eq_getElem?_getD,
        List.getElem?_append_right (by omega), ← List.getD_eq_getElem?_getD,
        hlen, basisRow_getD hi]
      congr 1
      simp only [eq_iff_iff]
      omega
  have hbias : (z.b.map (fun q => q - 1/2)).getD i 0 = z.b.getD i 0 - 1/2 := by
    exact getD_map (fun q => q - 1/2) z.b i 0 0 (by omega)
  exact ⟨hrow, hbias, hrow, hbias, rfl⟩

/-- C9 (witness): the floor theorem at the one-dimensional zonotope
`W = [[2]]`, `b = [3]`, checked at entry `(0, 1)` (the appended column). -/
theorem C9_floor_transformer_instance :
    ((Zonotope.abstract_floor ⟨[[2]], [3]⟩).W.getD 0 []).getD 1 0 =
      (if 1 < 1 then ((⟨[[2]], [3]⟩ : Zonotope).W.getD 0 []).getD 1 0
       else if 1 = 1 + 0 then 1/2 else 0) ∧
    (Zonotope.abstract_floor ⟨[[2]], [3]⟩).b.getD 0 0 =
      (⟨[[2]], [3]⟩ : Zonotope).b.getD 0 0 - 1/2 ∧
    ((CZonotope.abstract_floor ⟨[[2]], [3], [([1], 1)]⟩).W.getD 0 []).getD 1 0 =
      (if 1 < 1 then ((⟨[[2]], [3]⟩ : Zonotope).W.getD 0 []).getD 1 0
       else if 1 = 1 + 0 then 1/2 else 0) ∧
    (CZonotope.abstract_floor ⟨[[2]], [3], [([1], 1)]⟩).b.getD 0 0 =
      (⟨[[2]], [3]⟩ : Zonotope).b.getD 0 0 - 1/2 ∧
    (CZonotope.abstract_floor ⟨[[2]], [3], [([1], 1)]⟩).constraints = [([1], 1)] :=
  C9_floor_transformer ⟨[[2]], [3]⟩ [([1], 1)] 1 0 1
    (by intro r hr; simp at hr; simp [hr]) (by norm_num) (by norm_num)

/-- C10: constructing a `Layer` with activation `'clamp'` and `0` passed as
`lower_bound` (or as `upper_bound`) trips the constructor's truthiness guard
(`if lower_bound:` is false for `0`), so the bound attribute is never
stored; every subsequent `propagate`, `propagate_box` and
`propagate_vertices` call on that layer then raises `AttributeError` in the
clamp branch instead of clamping at `0`. -/
theorem C10_truthiness_guard_clamp_zero (w : List (List ℚ)) (b : List ℚ)
    (lb : ℚ) (ub : Option ℚ) (x : List ℚ) (box : List (ℚ × ℚ))
    (vs : List (List ℚ)) (hlb : lb ≠ 0) :
    (mkLayer w b .clamp (some 0) ub).lower_bound = none ∧
    (mkLayer w b .clamp (some 0) ub).propagate x = .error .attributeError ∧
    (mkLayer w b .clamp (some 0) ub).propagate_box box = .error .attributeError ∧
    (mkLayer w b .clamp (some 0) ub).propagate_vertices (x :: vs) =
      .error .attributeError ∧
    (mkLayer w b .clamp (some lb) (some 0)).upper_bound = none ∧
    (mkLayer w b .clamp (some lb) (some 0)).propagate x = .error .attributeError := by
  have h0 : truthyOpt (some (0 : ℚ)) = none := by simp [truthyOpt]
  have hl : truthyOpt (some lb) = some lb := by simp [truthyOpt, hlb]
  refine ⟨by simp [mkLayer, h0], ?_, ?_, ?_, by simp [mkLayer, h0], ?_⟩
  · simp [mkLayer, Layer.propagate, Layer.applyAct, h0]
  · simp [mkLayer, Layer.propagate_box, h0]
  · simp [mkLayer, Layer.propagate_vertices, Layer.applyAct, h0, List.mapM_cons, List.mapM.loop, Bind.bind, Except.bind]
  · simp [mkLayer, Layer.propagate, Layer.applyAct, h0, hl]

/-- C10 (witness): the guard theorem at the concrete layer
`Layer([[1]], [0], 'clamp', 0, 5)` (and `Layer([[1]], [0], 'clamp', -1, 0)`
for the upper bound), evaluated on the input `[3]`. -/
theorem C10_truthiness_guard_instance :
    (mkLayer [[1]] [0] .clamp (some 0) (some 5)).lower_bound = none ∧
    (mkLayer [[1]] [0] .clamp (some 0) (some 5)).propagate [3] =
      .error .attributeError ∧
    (mkLayer [[1]] [0] .clamp (some 0) (some 5)).propagate_box [(0, 1)] =
      .error .attributeError ∧
    (mkLayer [[1]] [0] .clamp (some 0) (some 5)).propagate_vertices ([3] :: []) =
      .error .attributeError ∧
    (mkLayer [[1]] [0] .clamp (some (-1)) (some 0)).upper_bound = none ∧
    (mkLayer [[1]] [0] .clamp (some (-1)) (some 0)).propagate [3] =
      .error .attributeError :=
  C10_truthiness_guard_clamp_zero [[1]] [0] (-1) (some 5) [3] [(0, 1)] []
    (by norm_num)

theorem dotF_nil (x : ℕ → ℚ) : dotF [] x = 0 := rfl

theorem dotF_cons (a : ℚ) (t : List ℚ) (x : ℕ → ℚ) :
    dotF (a :: t) x = a * x 0 + dotF t (fun i => x (i + 1)) := rfl

/-- C3 (counterexample): on the constrained zonotope `exCZ3`
(`W = [[1]]`, `b = [0]`, constraints `[-1]·eps <= 0` and `[1]·eps <= 0` in
the claim's reading), the exact maximum of the problem the code hands to
the solver is `1`, while the maximum the claim specifies is `0`: the `K`
constraint lambdas all capture the loop index late (so only the LAST stored
constraint is enforced) and scipy's `'ineq'` convention reads it as
`a·eps + c >= 0`, not `a·eps <= c`.  Hence `final_concretize`'s upper bound
for dimension 0 is not the claimed optimum. -/
theorem C3_code_optimum_differs_from_claim :
    IsGreatest (codeVals exCZ3 0) 1 ∧ IsGreatest (specVals exCZ3 0) 0 ∧
    ¬ IsGreatest (specVals exCZ3 0) 1 := by
  have hsc : solverConstraints exCZ3 = [([1], 0), ([1], 0)] := rfl
  have hspec : IsGreatest (specVals exCZ3 0) 0 := by
    constructor
    · refine ⟨fun _ => 0, ⟨?_, ?_⟩, ?_⟩
      · intro i hi
        norm_num
      · intro p hp
        have : p = (([(-1 : ℚ)], (0 : ℚ))) ∨ p = (([(1 : ℚ)], (0 : ℚ))) := by
          simpa [exCZ3] using hp
        rcases this with rfl | rfl <;>
          norm_num [padTo, padWidth, exCZ3, matWidth, maxRowLen, vecZeros,
            dotF_cons, dotF_nil]
      · norm_num [czObjective, exCZ3, dotF_cons, dotF_nil]
    · rintro v ⟨x, ⟨hbox, hcons⟩, rfl⟩
      have h1 := hcons ([(1 : ℚ)], (0 : ℚ)) (by simp [exCZ3])
      rw [show padTo (matWidth exCZ3.W) [(1 : ℚ)] = [1] from rfl] at h1
      rw [dotF_cons, dotF_nil] at h1
      norm_num at h1
      have : czObjective exCZ3 0 x = x 0 := by
        norm_num [czObjective, exCZ3, dotF_cons, dotF_nil]
      rw [this]
      linarith
  refine ⟨?_, hspec, ?_⟩
  · constructor
    · refine ⟨fun _ => 1, ⟨?_, ?_⟩, ?_⟩
      · intro i hi
        norm_num
      · intro p hp
        rw [hsc] at hp
        have hp1 : p = (([(1 : ℚ)], (0 : ℚ))) := by
          simpa using hp
        rw [hp1]
        norm_num [dotF_cons, dotF_nil]
      · norm_num [czObjective, exCZ3, dotF_cons, dotF_nil]
    · rintro v ⟨x, ⟨hbox, _⟩, rfl⟩
      have hx := (hbox 0 (by norm_num [exCZ3, matWidth])).2
      have : czObjective exCZ3 0 x = x 0 := by
        norm_num [czObjective, exCZ3, dotF_cons, dotF_nil]
      rw [this]
      linarith
  · intro h
    have := h.unique hspec
    norm_num at this

/-- C3 (amended): whenever the constraint store is nonempty (its last
element being `last`), the feasible set of the optimization problem
`final_concretize` constructs is exactly the unit box intersected with the
single inequality `last.1·eps + last.2 >= 0` (the last stored constraint,
zero-padded to `max(m, max_len)` and read with scipy's `'ineq'` sign
convention): the late-binding loop makes all `K` solver constraints equal to
that one. -/
theorem C3_solver_enforces_last_constraint_only (cz : CZonotope)
    (last : List ℚ × ℚ) (x : ℕ → ℚ)
    (h : cz.constraints.getLast? = some last) :
    codeFeasible cz x ↔
      boxMemF (matWidth cz.W) x ∧
        0 ≤ dotF (padTo (padWidth cz) last.1) x + last.2 := by
  have hne : cz.constraints.length ≠ 0 := by
    intro h0
    rw [List.length_eq_zero.1 h0] at h
    simp at h
  constructor
  · rintro ⟨hbox, hcons⟩
    refine ⟨hbox, ?_⟩
    have hmem : (padTo (padWidth cz) last.1, last.2) ∈ solverConstraints cz := by
      rw [solverConstraints, h]
      exact List.mem_replicate.2 ⟨hne, rfl⟩
    exact hcons _ hmem
  · rintro ⟨hbox, hlast⟩
    refine ⟨hbox, ?_⟩
    intro p hp
    rw [solverConstraints, h] at hp
    rw [List.eq_of_mem_replicate hp]
    exact hlast

/-- C3 (witness): the amended theorem at `exCZ3` (whose last stored
constraint is `([1], 0)`) and the zero noise vector. -/
theorem C3_solver_enforces_last_instance :
    codeFeasible exCZ3 (fun _ => 0) ↔
      boxMemF (matWidth exCZ3.W) (fun _ => 0) ∧
        0 ≤ dotF (padTo (padWidth exCZ3) [1]) (fun _ => 0) + 0 :=
  C3_solver_enforces_last_constraint_only exCZ3 ([1], 0) (fun _ => 0) rfl

/-- C5 (counterexample): `quantize` mutates the network it is called on and
returns it (`return self`): after `exN5.quantize exCfg 1` the object's state
has three layers instead of two and its first original layer is retagged
from `relu` to `clamp` — the original network value is NOT preserved, so
"does not alias the original / the original is unchanged" fails. -/
theorem C5_quantize_mutates_in_place :
    (Network.quantize exN5 exCfg 1).layers.length = 3 ∧
    exN5.layers.length = 2 ∧
    ((Network.quantize exN5 exCfg 1).layers.getD 1 default).activation = .clamp ∧
    (exN5.layers.getD 0 default).activation = .relu ∧
    Network.quantize exN5 exCfg 1 ≠ exN5 := by
  refine ⟨rfl, rfl, rfl, rfl, ?_⟩
  intro h
  have h3 : (Network.quantize exN5 exCfg 1).layers.length = 3 := rfl
  rw [h] at h3
  exact absurd h3 (by decide)

theorem modifyAt_length {α : Type} (l : List α) (i : ℕ) (f : α → α) :
    (modifyAt l i f).length = l.length := by
  induction l generalizing i with
  | nil => rfl
  | cons a t ih =>
      cases i with
      | zero => rfl
      | succ i => simpa [modifyAt] using ih i

theorem modifyAt_getD_self {α : Type} (l : List α) (i : ℕ) (f : α → α) (d : α)
    (h : i < l.length) : (modifyAt l i f).getD i d = f (l.getD i d) := by
  induction l generalizing i with
  | nil => simp at h
  | cons a t ih =>
      cases i with
      | zero => rfl
      | succ i => simpa [modifyAt] using ih i (by simpa using h)

theorem modifyAt_getD_other {α : Type} (l : List α) (i j : ℕ) (f : α → α) (d : α)
    (h : j ≠ i) : (modifyAt l i f).getD j d = l.getD j d := by
  induction l generalizing i j with
  | nil => rfl
  | cons a t ih =>
      cases i with
      | zero => cases j with
          | zero => exact absurd rfl h
          | succ j => rfl
      | succ i => cases j with
          | zero => rfl
          | succ j => simpa [modifyAt] using ih i j (by omega)

theorem mapIdxGo_length {α : Type} (f : ℕ → α → α) (s : ℕ) (l : List α) :
    (mapIdxGo f s l).length = l.length := by
  induction l generalizing s with
  | nil => rfl
  | cons a t ih => simpa [mapIdxGo] using ih (s + 1)

theorem mapIdxGo_getD {α : Type} (f : ℕ → α → α) (s : ℕ) (l : List α) (j : ℕ)
    (d : α) (h : j < l.length) :
    (mapIdxGo f s l).getD j d = f (s + j) (l.getD j d) := by
  induction l generalizing s j with
  | nil => simp at h
  | cons a t ih =>
      cases j with
      | zero => rfl
      | succ j =>
          have := ih (s + 1) j (by simpa using h)
          simpa [mapIdxGo, Nat.add_assoc, Nat.add_comm 1 j] using this

theorem headD_eq_getD {α : Type} (l : List α) (d : α) : l.headD d = l.getD 0 d := by
  cases l <;> rfl

theorem matWidth_quantW (cfg : QConfig) (e : ℤ) (W : List (List ℚ)) :
    matWidth (quantW cfg e W) = matWidth W := by
  cases W with
  | nil => rfl
  | cons r t => simp [quantW, scaleM, clampM, floorM, matWidth, scaleV]

theorem quantizeStep_fields (cfg : QConfig) (e1 e2 : ℤ) (L : Layer) :
    (quantizeStep cfg e1 e2 L).weights = quantW cfg e1 L.weights ∧
    (quantizeStep cfg e1 e2 L).biases = quantB cfg e2 L.biases ∧
    (quantizeStep cfg e1 e2 L).activation =
      (if L.activation = .relu then .clamp else L.activation) ∧
    (L.activation = .relu → (quantizeStep cfg e1 e2 L).lower_bound = some 0 ∧
      (quantizeStep cfg e1 e2 L).upper_bound = some cfg.Cub_h) := by
  unfold quantizeStep retagLayer
  by_cases h : L.activation = .relu <;> simp [h]

theorem quantize_layer_getD (n : Network) (cfg : QConfig) (v : ℕ) (j : ℕ)
    (h2 : 2 ≤ n.layers.length) (hj : j < n.layers.length) :
    (n.quantize cfg v).layers.getD (j+1) default =
      quantizeStep cfg
        (if j = 0 then expW0 cfg v
         else if j + 1 = n.layers.length then expWlast cfg v n.layers.length
         else expWmid cfg v)
        (if j + 1 = n.layers.length then expBlast cfg v n.layers.length
         else expB0 cfg v)
        (n.layers.getD j default) := by
  simp only [Network.quantize, List.getD_cons_succ]
  have hlen1 : (modifyAt n.layers 0
      (quantizeStep cfg (expW0 cfg v) (expB0 cfg v))).length = n.layers.length :=
    modifyAt_length _ _ _
  have hlen2 : (mapIdxGo (fun i L =>
      if 1 ≤ i ∧ i + 1 < n.layers.length then
        quantizeStep cfg (expWmid cfg v) (expB0 cfg v) L
      else L) 0 (modifyAt n.layers 0
        (quantizeStep cfg (expW0 cfg v) (expB0 cfg v)))).length = n.layers.length := by
    rw [mapIdxGo_length, hlen1]
  by_cases hlast : j = n.layers.length - 1
  · have hj0 : j ≠ 0 := by omega
    have hj1 : j + 1 = n.layers.length := by omega
    subst hlast
    rw [modifyAt_getD_self _ _ _ _ (by omega)]
    rw [mapIdxGo_getD _ _ _ _ _ (by omega)]
    rw [modifyAt_getD_other _ _ _ _ _ (by omega)]
    rw [if_neg (by omega), if_neg hj0, if_pos hj1, if_pos hj1]
  · have hj1 : j + 1 ≠ n.layers.length := by omega
    rw [modifyAt_getD_other _ _ _ _ _ (by omega)]
    rw [mapIdxGo_getD _ _ _ _ _ (by omega)]
    by_cases hj0 : j = 0
    · subst hj0
      rw [if_neg (by omega)]
      rw [modifyAt_getD_self _ _ _ _ (by omega)]
      rw [if_pos rfl, if_neg hj1]
    · rw [if_pos (by omega)]
      rw [modifyAt_getD_other _ _ _ _ _ (by omega)]
      rw [if_neg hj0, if_neg hj1, if_neg hj1]

/-- C5 (amended): `quantize` RETURNS THE MUTATED ORIGINAL (`return self`),
so the original network object is not preserved (see the counterexample);
structurally, for any network with at least two layers, the result has the
input-quantization layer `Layer(2^Fin·I, 0, 'clamp', Clb_in, Cub_in)`
prepended (built through `Layer.__init__`, hence through its truthiness
guard), its `quantized` flag set, every original `relu` layer retagged to
`clamp` with bounds `(0, Cub_h)`, and each original layer's weights and
biases rescaled as `2^e * clamp(floor(2^F * value), lo, hi)` with the
position- and version-dependent exponents `e`. -/
theorem C5_quantize_structure (n : Network) (cfg : QConfig) (v : ℕ) (i : ℕ)
    (h2 : 2 ≤ n.layers.length) (hi : i < n.layers.length) :
    (n.quantize cfg v).quantized = true ∧
    (n.quantize cfg v).layers.length = n.layers.length + 1 ∧
    (n.quantize cfg v).layers.headD default =
      mkLayer (scaleM ((2:ℚ) ^ cfg.Fin) (eyeQ (matWidth (n.layers.headD default).weights)))
        (vecZeros (matWidth (n.layers.headD default).weights)) .clamp
        (some cfg.Clb_in) (some cfg.Cub_in) ∧
    ((n.quantize cfg v).layers.getD (i+1) default).activation =
      (if (n.layers.getD i default).activation = .relu then .clamp
       else (n.layers.getD i default).activation) ∧
    ((n.layers.getD i default).activation = .relu →
      ((n.quantize cfg v).layers.getD (i+1) default).lower_bound = some 0 ∧
      ((n.quantize cfg v).layers.getD (i+1) default).upper_bound = some cfg.Cub_h) ∧
    ((n.quantize cfg v).layers.getD (i+1) default).weights =
      quantW cfg
        (if i = 0 then expW0 cfg v
         else if i + 1 = n.layers.length then expWlast cfg v n.layers.length
         else expWmid cfg v) (n.layers.getD i default).weights ∧
    ((n.quantize cfg v).layers.getD (i+1) default).biases =
      quantB cfg
        (if i + 1 = n.layers.length then expBlast cfg v n.layers.length
         else expB0 cfg v) (n.layers.getD i default).biases := by
  have hres := quantize_layer_getD n cfg v i h2 hi
  have h00 := quantize_layer_getD n cfg v 0 h2 (by omega)
  refine ⟨rfl, ?_, ?_, ?_, ?_, ?_, ?_⟩
  · simp only [Network.quantize, List.length_cons]
    rw [modifyAt_length, mapIdxGo_length, modifyAt_length]
  · have hl3 : (n.quantize cfg v).layers.getD 1 default =
        quantizeStep cfg (expW0 cfg v) (expB0 cfg v) (n.layers.getD 0 default) := by
      rw [h00, if_pos rfl, if_neg (by omega)]
    simp only [Network.quantize, List.headD_cons]
    have hw : matWidth ((modifyAt (mapIdxGo (fun i L =>
        if 1 ≤ i ∧ i + 1 < n.layers.length then
          quantizeStep cfg (expWmid cfg v) (expB0 cfg v) L
        else L) 0 (modifyAt n.layers 0
          (quantizeStep cfg (expW0 cfg v) (expB0 cfg v)))) (n.layers.length - 1)
        (quantizeStep cfg (expWlast cfg v n.layers.length)
          (expBlast cfg v n.layers.length))).headD default).weights =
        matWidth (n.layers.headD default).weights := by
      rw [headD_eq_getD, headD_eq_getD]
      have h3 : (modifyAt (mapIdxGo (fun i L =>
          if 1 ≤ i ∧ i + 1 < n.layers.length then
            quantizeStep cfg (expWmid cfg v) (expB0 cfg v) L
          else L) 0 (modifyAt n.layers 0
            (quantizeStep cfg (expW0 cfg v) (expB0 cfg v)))) (n.layers.length - 1)
          (quantizeStep cfg (expWlast cfg v n.layers.length)
            (expBlast cfg v n.layers.length))).getD 0 default =
          (n.quantize cfg v).layers.getD 1 default := by
        simp only [Network.quantize, List.getD_cons_succ]
      rw [h3, hl3]
      simp only [quantizeStep, retagLayer]
      split <;> exact matWidth_quantW cfg _ _
    rw [hw]
  · rw [hres]
    exact (quantizeStep_fields cfg _ _ _).2.2.1
  · intro hact
    rw [hres]
    exact (quantizeStep_fields cfg _ _ _).2.2.2 hact
  · rw [hres]
    exact (quantizeStep_fields cfg _ _ _).1
  · rw [hres]
    exact (quantizeStep_fields cfg _ _ _).2.1

/-- C5 (witness): the structural theorem at the two-layer ReLU network
`exN5` with configuration `exCfg`, version 1, layer index 0. -/
theorem C5_quantize_structure_instance :
    (Network.quantize exN5 exCfg 1).quantized = true ∧
    (Network.quantize exN5 exCfg 1).layers.length = exN5.layers.length + 1 ∧
    (Network.quantize exN5 exCfg 1).layers.headD default =
      mkLayer (scaleM ((2:ℚ) ^ exCfg.Fin) (eyeQ (matWidth (exN5.layers.headD default).weights)))
        (vecZeros (matWidth (exN5.layers.headD default).weights)) .clamp
        (some exCfg.Clb_in) (some exCfg.Cub_in) ∧
    ((Network.quantize exN5 exCfg 1).layers.getD 1 default).activation =
      (if (exN5.layers.getD 0 default).activation = .relu then .clamp
       else (exN5.layers.getD 0 default).activation) ∧
    ((exN5.layers.getD 0 default).activation = .relu →
      ((Network.quantize exN5 exCfg 1).layers.getD 1 default).lower_bound = some 0 ∧
      ((Network.quantize exN5 exCfg 1).layers.getD 1 default).upper_bound = some exCfg.Cub_h) ∧
    ((Network.quantize exN5 exCfg 1).layers.getD 1 default).weights =
      quantW exCfg (expW0 exCfg 1) (exN5.layers.getD 0 default).weights ∧
    ((Network.quantize exN5 exCfg 1).layers.getD 1 default).biases =
      quantB exCfg (expB0 exCfg 1) (exN5.layers.getD 0 default).biases :=
  C5_quantize_structure exN5 exCfg 1 0 (by norm_num [exN5]) (by norm_num [exN5])

theorem mem_zipWith {α β γ : Type} {f : α → β → γ} :
    ∀ {l1 : List α} {l2 : List β} {v : γ}, v ∈ List.zipWith f l1 l2 →
      ∃ x, x ∈ l1 ∧ ∃ y, y ∈ l2 ∧ v = f x y := by
  intro l1
  induction l1 with
  | nil => intro l2 v h; simp at h
  | cons a t ih =>
      intro l2 v h
      cases l2 with
      | nil => simp at h
      | cons b s =>
          rcases List.mem_cons.1 h with rfl | h
          · exact ⟨a, List.mem_cons_self a t, b, List.mem_cons_self b s, rfl⟩
          · rcases ih h with ⟨x, hx, y, hy, rfl⟩
            exact ⟨x, List.mem_cons_of_mem a hx, y, List.mem_cons_of_mem b hy, rfl⟩

theorem foldr_addV_length (m : ℕ) (init : List ℚ) (l : List (List ℚ))
    (hinit : init.length = m) (h : ∀ v ∈ l, v.length = m) :
    (l.foldr addV init).length = m := by
  induction l with
  | nil => exact hinit
  | cons v t ih =>
      have ht : (t.foldr addV init).length = m :=
        ih (fun w hw => h w (List.mem_cons_of_mem v hw))
      have hv : v.length = m := h v (List.mem_cons_self v t)
      simp [addV, List.length_zipWith, hv, ht]

theorem matMul_row_length (A W : List (List ℚ)) (m : ℕ)
    (hW : ∀ row ∈ W, row.length = m) (hm : matWidth W = m) :
    ∀ row ∈ matMul A W, row.length = m := by
  intro row hrow
  rcases List.mem_map.1 hrow with ⟨a, _, rfl⟩
  refine foldr_addV_length m _ _ (by simp [vecZeros, hm]) ?_
  intro v hv
  rcases mem_zipWith hv with ⟨x, _, y, hy, rfl⟩
  simpa [scaleV] using hW y hy

theorem czReluRowAt_length (ver : CZVersion) (m d i : ℕ) (row : List ℚ)
    (l u : ℚ) (hi : i < d) (hrow : row.length = m) :
    (czReluRowAt ver m d i row l u).length = m + d := by
  unfold czReluRowAt
  cases ver <;> (repeat' split) <;>
    simp [vecZeros, scaleV_length, List.length_append, hrow] <;> omega

theorem czClampRowAt_length (ver : CZVersion) (m d i : ℕ) (row : List ℚ)
    (l u C : ℚ) (hi : i < d) (hrow : row.length = m) :
    (czClampRowAt ver m d i row l u C).length = m + d := by
  unfold czClampRowAt
  cases ver <;> (repeat' split) <;>
    simp [vecZeros, scaleV_length, List.length_append, hrow] <;> omega

/-- C7: the monotonic-growth invariant of one constrained-zonotope
propagation.  `linear_transformation` keeps the generator width and the
constraint store; `abstract_ReLU` and `abstract_clamp` (either encoding)
grow the width from `m` to `m + d` and only append to the constraint store
(count non-decreasing, every previously stored constraint still at its
index); `abstract_floor` grows the width to `m + d` and keeps the store;
and the re-padding used at bound-extraction time (`padTo`) only ever
extends a row, never truncates it. -/
theorem C7_monotonic_growth (W : List (List ℚ)) (b : List ℚ)
    (cons : List (List ℚ × ℚ)) (ver : CZVersion) (A : List (List ℚ))
    (c : List ℚ) (ub : ℚ) (m k n : ℕ) (r : List ℚ)
    (hW : ∀ row ∈ W, row.length = m) (hm : matWidth W = m)
    (hk : k < cons.length) :
    (∀ row ∈ (CZonotope.linear_transformation ⟨W, b, cons⟩ A c).W, row.length = m) ∧
    (CZonotope.linear_transformation ⟨W, b, cons⟩ A c).constraints = cons ∧
    (∀ row ∈ (CZonotope.abstract_ReLU ⟨W, b, cons⟩ ver).W, row.length = m + W.length) ∧
    cons.length ≤ (CZonotope.abstract_ReLU ⟨W, b, cons⟩ ver).constraints.length ∧
    (CZonotope.abstract_ReLU ⟨W, b, cons⟩ ver).constraints.getD k ([], 0) =
      cons.getD k ([], 0) ∧
    (∀ row ∈ (CZonotope.abstract_clamp ⟨W, b, cons⟩ ub ver).W, row.length = m + W.length) ∧
    cons.length ≤ (CZonotope.abstract_clamp ⟨W, b, cons⟩ ub ver).constraints.length ∧
    (CZonotope.abstract_clamp ⟨W, b, cons⟩ ub ver).constraints.getD k ([], 0) =
      cons.getD k ([], 0) ∧
    (∀ row ∈ (CZonotope.abstract_floor ⟨W, b, cons⟩).W, row.length = m + W.length) ∧
    (CZonotope.abstract_floor ⟨W, b, cons⟩).constraints = cons ∧
    (padTo n r).take r.length = r ∧ r.length ≤ (padTo n r).length := by
  refine ⟨matMul_row_length A W m hW hm, rfl, ?_, ?_, ?_, ?_, ?_, ?_, ?_, rfl, ?_, ?_⟩
  · intro row hrow
    rcases List.mem_map.1 hrow with ⟨i, hi, rfl⟩
    have hi : i < W.length := List.mem_range.1 hi
    have hr : (W.getD i []).length = matWidth W :=
      (hW _ (getD_mem W i [] hi)).trans hm.symm
    exact (czReluRowAt_length ver _ _ _ _ _ _ hi hr).trans (by rw [hm])
  · show cons.length ≤ (cons ++ _).length
    simp
  · show (cons ++ _).getD k ([], 0) = cons.getD k ([], 0)
    exact List.getD_append _ _ _ _ hk
  · intro row hrow
    rcases List.mem_map.1 hrow with ⟨i, hi, rfl⟩
    have hi : i < W.length := List.mem_range.1 hi
    have hr : (W.getD i []).length = matWidth W :=
      (hW _ (getD_mem W i [] hi)).trans hm.symm
    exact (czClampRowAt_length ver _ _ _ _ _ _ _ hi hr).trans (by rw [hm])
  · show cons.length ≤ (cons ++ _).length
    simp
  · show (cons ++ _).getD k ([], 0) = cons.getD k ([], 0)
    exact List.getD_append _ _ _ _ hk
  · intro row hrow
    rcases mem_zipWith hrow with ⟨x, hx, y, hy, rfl⟩
    rcases List.mem_map.1 hy with ⟨e, he, rfl⟩
    rcases List.mem_map.1 he with ⟨i, hir, rfl⟩
    have hi : i < W.length := List.mem_range.1 hir
    simp [hW x hx, scaleV, basisRow_length 1 hi]
  · exact List.take_left r _
  · simp [padTo]

/-- C7 (witness): the growth invariant at the concrete constrained zonotope
`W = [[1]]`, `b = [0]`, one stored constraint `([1], 1)`, with a `2×1`
linear map, clamp bound `3`, the standard encoding, and `padTo 2 [1]`. -/
theorem C7_monotonic_growth_instance :
    (∀ row ∈ (CZonotope.linear_transformation ⟨[[1]], [0], [([1], 1)]⟩ [[2]] [5]).W,
      row.length = 1) ∧
    (CZonotope.linear_transformation ⟨[[1]], [0], [([1], 1)]⟩ [[2]] [5]).constraints =
      [([1], 1)] ∧
    (∀ row ∈ (CZonotope.abstract_ReLU ⟨[[1]], [0], [([1], 1)]⟩ .standard).W,
      row.length = 1 + 1) ∧
    ([([1], 1)] : List (List ℚ × ℚ)).length ≤
      (CZonotope.abstract_ReLU ⟨[[1]], [0], [([1], 1)]⟩ .standard).constraints.length ∧
    (CZonotope.abstract_ReLU ⟨[[1]], [0], [([1], 1)]⟩ .standard).constraints.getD 0 ([], 0) =
      ([([1], 1)] : List (List ℚ × ℚ)).getD 0 ([], 0) ∧
    (∀ row ∈ (CZonotope.abstract_clamp ⟨[[1]], [0], [([1], 1)]⟩ 3 .standard).W,
      row.length = 1 + 1) ∧
    ([([1], 1)] : List (List ℚ × ℚ)).length ≤
      (CZonotope.abstract_clamp ⟨[[1]], [0], [([1], 1)]⟩ 3 .standard).constraints.length ∧
    (CZonotope.abstract_clamp ⟨[[1]], [0], [([1], 1)]⟩ 3 .standard).constraints.getD 0 ([], 0) =
      ([([1], 1)] : List (List ℚ × ℚ)).getD 0 ([], 0) ∧
    (∀ row ∈ (CZonotope.abstract_floor ⟨[[1]], [0], [([1], 1)]⟩).W, row.length = 1 + 1) ∧
    (CZonotope.abstract_floor ⟨[[1]], [0], [([1], 1)]⟩).constraints = [([1], 1)] ∧
    (padTo 2 [1]).take ([(1 : ℚ)] : List ℚ).length = [1] ∧
    ([(1 : ℚ)] : List ℚ).length ≤ (padTo 2 [1]).length :=
  C7_monotonic_growth [[1]] [0] [([1], 1)] .standard [[2]] [5] 3 1 0 2 [1]
    (by intro row hrow; simp at hrow; simp [hrow]) rfl (by norm_num)

theorem czLower_eq_zLower (W : List (List ℚ)) (b : List ℚ)
    (cons : List (List ℚ × ℚ)) (i : ℕ) :
    czLower ⟨W, b, cons⟩ i = zLower ⟨W, b⟩ i := rfl

theorem czReluRowAt_standard_eq (m d i : ℕ) (row : List ℚ) (l u : ℚ)
    (hi : i < d) :
    czReluRowAt .standard m d i row l u =
      zReluRow row l u m ++ basisRow d i (zReluDiag l u) := by
  unfold czReluRowAt zReluRow zReluDiag
  by_cases h1 : u ≤ 0
  · rw [if_pos h1, if_pos h1, if_pos h1, basisRow_zeros hi]
    rw [show [(0 : ℚ)] = vecZeros 1 from rfl, vecZeros_append, vecZeros_append,
      vecZeros_append]
    congr 1
    omega
  by_cases h2 : 0 ≤ l
  · rw [if_neg h1, if_neg h1, if_neg h1, if_pos h2, if_pos h2, if_pos h2]
    show row ++ vecZeros i ++ vecZeros 1 ++ vecZeros (d - 1 - i) = _
    rw [basisRow]
    show _ = row ++ (vecZeros i ++ vecZeros 1 ++ vecZeros (d - 1 - i))
    simp [List.append_assoc]
  · rw [if_neg h1, if_neg h1, if_neg h1, if_neg h2, if_neg h2, if_neg h2]
    show scaleV (reluSlope l u) (row ++ vecZeros i) ++ [reluOffset l u / 2] ++
        vecZeros (d - 1 - i) =
      scaleV (reluSlope l u) row ++ basisRow d i (reluOffset l u / 2)
    rw [basisRow, scaleV_append, scaleV_vecZeros]
    simp [List.append_assoc]

theorem czClampRowAt_standard_eq (m d i : ℕ) (row : List ℚ) (l u C : ℚ)
    (hi : i < d) :
    czClampRowAt .standard m d i row l u C =
      zClampRow row l u C m ++ basisRow d i (zClampDiag l u C) := by
  unfold czClampRowAt zClampRow zClampDiag
  by_cases h1 : u ≤ 0
  · rw [if_pos h1, if_pos h1, if_pos h1, basisRow_zeros hi]
    rw [show [(0 : ℚ)] = vecZeros 1 from rfl, vecZeros_append, vecZeros_append,
      vecZeros_append]
    congr 1
    omega
  rw [if_neg h1, if_neg h1, if_neg h1]
  by_cases h2 : C ≤ l
  · rw [if_pos h2, if_pos h2, if_pos h2, basisRow_zeros hi]
    rw [show [(0 : ℚ)] = vecZeros 1 from rfl, vecZeros_append, vecZeros_append,
      vecZeros_append]
    congr 1
    omega
  rw [if_neg h2, if_neg h2, if_neg h2]
  by_cases h3 : 0 ≤ l ∧ u ≤ C
  · rw [if_pos h3, if_pos h3, if_pos h3]
    show row ++ vecZeros i ++ [(0 : ℚ)] ++ vecZeros (d - 1 - i) =
      row ++ (vecZeros i ++ [(0 : ℚ)] ++ vecZeros (d - 1 - i))
    simp [List.append_assoc]
  · rw [if_neg h3, if_neg h3, if_neg h3]
    show scaleV (clampSlope l u C) (row ++ vecZeros i) ++ [clampShift l u C / 2] ++
        vecZeros (d - 1 - i) =
      scaleV (clampSlope l u C) row ++ basisRow d i (clampShift l u C / 2)
    rw [basisRow, scaleV_append, scaleV_vecZeros]
    simp [List.append_assoc]

theorem abstract_ReLU_standard_W (cz : CZonotope) :
    (cz.abstract_ReLU .standard).W = (Zonotope.abstract_ReLU ⟨cz.W, cz.b⟩).W := by
  show (List.range cz.W.length).map _ = (List.range cz.W.length).map _
  apply List.map_congr_left
  intro i hi
  exact czReluRowAt_standard_eq _ _ i _ _ _ (List.mem_range.1 hi)

theorem abstract_ReLU_standard_b (cz : CZonotope) :
    (cz.abstract_ReLU .standard).b = (Zonotope.abstract_ReLU ⟨cz.W, cz.b⟩).b := rfl

theorem abstract_clamp_standard_W (cz : CZonotope) (C : ℚ) :
    (cz.abstract_clamp C .standard).W = (Zonotope.abstract_clamp ⟨cz.W, cz.b⟩ C).W := by
  show (List.range cz.W.length).map _ = (List.range cz.W.length).map _
  apply List.map_congr_left
  intro i hi
  exact czClampRowAt_standard_eq _ _ i _ _ _ _ (List.mem_range.1 hi)

theorem abstract_clamp_standard_b (cz : CZonotope) (C : ℚ) :
    (cz.abstract_clamp C .standard).b = (Zonotope.abstract_clamp ⟨cz.W, cz.b⟩ C).b := rfl

theorem abstract_floor_standard_Wb (cz : CZonotope) :
    (cz.abstract_floor).W = (Zonotope.abstract_floor ⟨cz.W, cz.b⟩).W ∧
    (cz.abstract_floor).b = (Zonotope.abstract_floor ⟨cz.W, cz.b⟩).b := ⟨rfl, rfl⟩

theorem foldZono_cons (L : Layer) (t : List Layer) (z : Zonotope) :
    foldZono (L :: t) z = (L.propagate_zonotope z).bind (foldZono t) := by
  show List.foldlM _ z (L :: t) = _
  rw [List.foldlM_cons]
  rfl

theorem foldCZono_cons (L : Layer) (t : List Layer) (cz : CZonotope)
    (ver : CZVersion) :
    foldCZono (L :: t) cz ver =
      (L.propagate_constrained_zonotope cz ver).bind (fun c => foldCZono t c ver) := by
  show List.foldlM _ cz (L :: t) = _
  rw [List.foldlM_cons]
  rfl

theorem rect_matMul (A W : List (List ℚ))
    (h : ∀ row ∈ W, row.length = matWidth W) :
    ∀ row ∈ matMul A W, row.length = matWidth (matMul A W) := by
  have hall : ∀ row ∈ matMul A W, row.length = matWidth W :=
    matMul_row_length A W (matWidth W) h rfl
  intro row hrow
  cases hA : A with
  | nil => rw [hA] at hrow; simp [matMul] at hrow
  | cons a t =>
      subst hA
      have hhead : (matMul (a :: t) W).headD [] ∈ matMul (a :: t) W := by
        simp [matMul]
      have hw : matWidth (matMul (a :: t) W) = matWidth W := hall _ hhead
      rw [hw]
      exact hall row hrow

theorem rect_cz_relu (cz : CZonotope) (ver : CZVersion)
    (h : ∀ row ∈ cz.W, row.length = matWidth cz.W) :
    ∀ row ∈ (cz.abstract_ReLU ver).W, row.length = matWidth (cz.abstract_ReLU ver).W := by
  have hall : ∀ row ∈ (cz.abstract_ReLU ver).W,
      row.length = matWidth cz.W + cz.W.length := by
    intro row hrow
    rcases List.mem_map.1 hrow with ⟨i, hir, rfl⟩
    have hi : i < cz.W.length := List.mem_range.1 hir
    exact czReluRowAt_length ver _ _ _ _ _ _ hi (h _ (getD_mem cz.W i [] hi))
  intro row hrow
  rcases Nat.eq_zero_or_pos cz.W.length with hd | hne
  · have : (cz.abstract_ReLU ver).W = [] := by
      show (List.range cz.W.length).map _ = []
      rw [hd]
      rfl
    rw [this] at hrow
    simp at hrow
  · have hhead : (cz.abstract_ReLU ver).W.headD [] ∈ (cz.abstract_ReLU ver).W := by
      show ((List.range cz.W.length).map _).headD [] ∈ _
      rw [headD_eq_getD, getD_range_map _ _ _ _ hne]
      exact List.mem_map.2 ⟨0, List.mem_range.2 hne, rfl⟩
    have hw : matWidth (cz.abstract_ReLU ver).W = matWidth cz.W + cz.W.length :=
      hall _ hhead
    rw [hw]
    exact hall row hrow

theorem rect_cz_clamp (cz : CZonotope) (C : ℚ) (ver : CZVersion)
    (h : ∀ row ∈ cz.W, row.length = matWidth cz.W) :
    ∀ row ∈ (cz.abstract_clamp C ver).W,
      row.length = matWidth (cz.abstract_clamp C ver).W := by
  have hall : ∀ row ∈ (cz.abstract_clamp C ver).W,
      row.length = matWidth cz.W + cz.W.length := by
    intro row hrow
    rcases List.mem_map.1 hrow with ⟨i, hir, rfl⟩
    have hi : i < cz.W.length := List.mem_range.1 hir
    exact czClampRowAt_length ver _ _ _ _ _ _ _ hi (h _ (getD_mem cz.W i [] hi))
  intro row hrow
  rcases Nat.eq_zero_or_pos cz.W.length with hd | hne
  · have : (cz.abstract_clamp C ver).W = [] := by
      show (List.range cz.W.length).map _ = []
      rw [hd]
      rfl
    rw [this] at hrow
    simp at hrow
  · have hhead : (cz.abstract_clamp C ver).W.headD [] ∈ (cz.abstract_clamp C ver).W := by
      show ((List.range cz.W.length).map _).headD [] ∈ _
      rw [headD_eq_getD, getD_range_map _ _ _ _ hne]
      exact List.mem_map.2 ⟨0, List.mem_range.2 hne, rfl⟩
    have hw : matWidth (cz.abstract_clamp C ver).W = matWidth cz.W + cz.W.length :=
      hall _ hhead
    rw [hw]
    exact hall row hrow

theorem rect_cz_floor (cz : CZonotope)
    (h : ∀ row ∈ cz.W, row.length = matWidth cz.W) :
    ∀ row ∈ (cz.abstract_floor).W, row.length = matWidth (cz.abstract_floor).W := by
  have hall : ∀ row ∈ (cz.abstract_floor).W,
      row.length = matWidth cz.W + cz.W.length := by
    intro row hrow
    rcases mem_zipWith hrow with ⟨x, hx, y, hy, rfl⟩
    rcases List.mem_map.1 hy with ⟨e, he, rfl⟩
    rcases List.mem_map.1 he with ⟨i, hir, rfl⟩
    have hi : i < cz.W.length := List.mem_range.1 hir
    simp [h x hx, scaleV, basisRow_length 1 hi]
  intro row hrow
  have hne : (cz.abstract_floor).W ≠ [] := List.ne_nil_of_mem hrow
  have hhead : (cz.abstract_floor).W.headD [] ∈ (cz.abstract_floor).W := by
    cases hW : (cz.abstract_floor).W with
    | nil => exact absurd hW hne
    | cons r2 t2 => simp
  have hw : matWidth (cz.abstract_floor).W = matWidth cz.W + cz.W.length :=
    hall _ hhead
  rw [hw]
  exact hall row hrow

theorem rect_layer_step (L : Layer) (cz cz' : CZonotope) (ver : CZVersion)
    (h : ∀ row ∈ cz.W, row.length = matWidth cz.W)
    (hstep : L.propagate_constrained_zonotope cz ver = .ok cz') :
    ∀ row ∈ cz'.W, row.length = matWidth cz'.W := by
  have hlin : ∀ row ∈ (cz.linear_transformation L.weights L.biases).W,
      row.length = matWidth (cz.linear_transformation L.weights L.biases).W :=
    rect_matMul L.weights cz.W h
  cases hact : L.activation with
  | relu =>
      rw [Layer.propagate_constrained_zonotope, hact] at hstep
      have : (cz.linear_transformation L.weights L.biases).abstract_ReLU ver = cz' :=
        Except.ok.inj hstep
      rw [← this]
      exact rect_cz_relu _ ver hlin
  | clamp =>
      rw [Layer.propagate_constrained_zonotope, hact] at hstep
      cases hub : L.upper_bound with
      | none => rw [hub] at hstep; exact absurd hstep (by simp)
      | some C =>
          rw [hub] at hstep
          have : ((cz.linear_transformation L.weights L.biases).abstract_floor).abstract_clamp
              C ver = cz' := Except.ok.inj hstep
          rw [← this]
          exact rect_cz_clamp _ C ver (rect_cz_floor _ hlin)
  | identity =>
      rw [Layer.propagate_constrained_zonotope, hact] at hstep
      have : cz.linear_transformation L.weights L.biases = cz' := Except.ok.inj hstep
      rw [← this]
      exact hlin

theorem rect_foldCZono (ls : List Layer) :
    ∀ (cz cz' : CZonotope) (ver : CZVersion),
      (∀ row ∈ cz.W, row.length = matWidth cz.W) →
      foldCZono ls cz ver = .ok cz' →
      ∀ row ∈ cz'.W, row.length = matWidth cz'.W := by
  induction ls with
  | nil =>
      intro cz cz' ver h hfold
      have : cz = cz' := Except.ok.inj hfold
      rw [← this]
      exact h
  | cons L t ih =>
      intro cz cz' ver h hfold
      rw [foldCZono_cons] at hfold
      cases hstep : L.propagate_constrained_zonotope cz ver with
      | error e => rw [hstep] at hfold; exact absurd hfold (by simp [Except.bind])
      | ok cz1 =>
          rw [hstep] at hfold
          exact ih cz1 cz' ver (rect_layer_step L cz cz1 ver h hstep) hfold

theorem rect_lift (box : List (ℚ × ℚ)) :
    ∀ row ∈ (abstract_to_constrained_zonotope box).W,
      row.length = matWidth (abstract_to_constrained_zonotope box).W := by
  have hall : ∀ row ∈ (abstract_to_constrained_zonotope box).W,
      row.length = box.length := by
    intro row hrow
    rcases List.mem_map.1 hrow with ⟨i, hir, rfl⟩
    exact basisRow_length _ (List.mem_range.1 hir)
  intro row hrow
  rcases Nat.eq_zero_or_pos box.length with hd | hne
  · have hW : (abstract_to_constrained_zonotope box).W = [] := by
      show (List.range box.length).map _ = []
      rw [hd]
      rfl
    rw [hW] at hrow
    simp at hrow
  · have hhead : (abstract_to_constrained_zonotope box).W.headD [] ∈
        (abstract_to_constrained_zonotope box).W := by
      show ((List.range box.length).map _).headD [] ∈ _
      rw [headD_eq_getD, getD_range_map _ _ _ _ hne]
      exact List.mem_map.2 ⟨0, List.mem_range.2 hne, rfl⟩
    have hw : matWidth (abstract_to_constrained_zonotope box).W = box.length :=
      hall _ hhead
    rw [hw]
    exact hall row hrow

theorem propagateCZ_rect (n : Network) (box : List (ℚ × ℚ)) (cz : CZonotope)
    (ver : CZVersion)
    (hcz : n.propagate_constrained_zonotope box ver = .ok cz) :
    ∀ row ∈ cz.W, row.length = matWidth cz.W := by
  rw [Network.propagate_constrained_zonotope] at hcz
  cases hq : n.quantized with
  | false =>
      rw [hq] at hcz
      exact rect_foldCZono n.layers _ cz ver (rect_lift box) hcz
  | true =>
      rw [hq] at hcz
      cases hl : n.layers with
      | nil =>
          rw [hl] at hcz
          exact absurd hcz (by simp)
      | cons L0 rest =>
          rw [hl] at hcz
          have hcz' : (vertexPreprocess L0 box).bind (fun box1 =>
              foldCZono rest (abstract_to_constrained_zonotope box1) ver) = .ok cz := hcz
          cases hvp : vertexPreprocess L0 box with
          | error e => rw [hvp] at hcz'; exact absurd hcz' (by simp [Except.bind])
          | ok box1 =>
              rw [hvp] at hcz'
              exact rect_foldCZono rest _ cz ver (rect_lift box1) hcz'

theorem layer_step_standard_eq (L : Layer) (z : Zonotope) (cz : CZonotope)
    (h1 : z.W = cz.W) (h2 : z.b = cz.b) :
    (∃ e, L.propagate_zonotope z = .error e ∧
      L.propagate_constrained_zonotope cz .standard = .error e) ∨
    (∃ z' cz', L.propagate_zonotope z = .ok z' ∧
      L.propagate_constrained_zonotope cz .standard = .ok cz' ∧
      z'.W = cz'.W ∧ z'.b = cz'.b) := by
  have hlin : z.linear_transformation L.weights L.biases =
      (⟨(cz.linear_transformation L.weights L.biases).W,
        (cz.linear_transformation L.weights L.biases).b⟩ : Zonotope) := by
    simp [Zonotope.linear_transformation, CZonotope.linear_transformation, h1, h2]
  cases hact : L.activation with
  | relu =>
      right
      refine ⟨(z.linear_transformation L.weights L.biases).abstract_ReLU,
        (cz.linear_transformation L.weights L.biases).abstract_ReLU .standard,
        ?_, ?_, ?_, ?_⟩
      · simp [Layer.propagate_zonotope, hact]
      · simp [Layer.propagate_constrained_zonotope, hact]
      · rw [abstract_ReLU_standard_W, hlin]
      · rw [abstract_ReLU_standard_b, hlin]
  | clamp =>
      cases hub : L.upper_bound with
      | none =>
          left
          refine ⟨.attributeError, ?_, ?_⟩
          · simp [Layer.propagate_zonotope, hact, hub]
          · simp [Layer.propagate_constrained_zonotope, hact, hub]
      | some C =>
          right
          have hfl : (z.linear_transformation L.weights L.biases).abstract_floor =
              (⟨(cz.linear_transformation L.weights L.biases).abstract_floor.W,
                (cz.linear_transformation L.weights L.biases).abstract_floor.b⟩ : Zonotope) := by
            rw [hlin]
            exact (abstract_floor_standard_Wb (cz.linear_transformation L.weights L.biases)).1 ▸
              (abstract_floor_standard_Wb (cz.linear_transformation L.weights L.biases)).2 ▸ rfl
          refine ⟨(z.linear_transformation L.weights L.biases).abstract_floor.abstract_clamp C,
            ((cz.linear_transformation L.weights L.biases).abstract_floor).abstract_clamp C .standard,
            ?_, ?_, ?_, ?_⟩
          · simp [Layer.propagate_zonotope, hact, hub]
          · simp [Layer.propagate_constrained_zonotope, hact, hub]
          · rw [abstract_clamp_standard_W, hfl]
          · rw [abstract_clamp_standard_b, hfl]
  | identity =>
      right
      refine ⟨z.linear_transformation L.weights L.biases,
        cz.linear_transformation L.weights L.biases, ?_, ?_, ?_, ?_⟩
      · simp [Layer.propagate_zonotope, hact]
      · simp [Layer.propagate_constrained_zonotope, hact]
      · rw [hlin]
      · rw [hlin]

theorem fold_standard_eq (ls : List Layer) :
    ∀ (z : Zonotope) (cz : CZonotope), z.W = cz.W → z.b = cz.b →
      (∃ e, foldZono ls z = .error e ∧ foldCZono ls cz .standard = .error e) ∨
      (∃ z' cz', foldZono ls z = .ok z' ∧ foldCZono ls cz .standard = .ok cz' ∧
        z'.W = cz'.W ∧ z'.b = cz'.b) := by
  induction ls with
  | nil =>
      intro z cz h1 h2
      right
      exact ⟨z, cz, rfl, rfl, h1, h2⟩
  | cons L t ih =>
      intro z cz h1 h2
      rcases layer_step_standard_eq L z cz h1 h2 with ⟨e, hez, hec⟩ | ⟨z1, cz1, hz1, hc1, hW1, hb1⟩
      · left
        refine ⟨e, ?_, ?_⟩
        · rw [foldZono_cons, hez]
          rfl
        · rw [foldCZono_cons, hec]
          rfl
      · rcases ih z1 cz1 hW1 hb1 with ⟨e, hez, hec⟩ | ⟨z2, cz2, hz2, hc2, hW2, hb2⟩
        · left
          refine ⟨e, ?_, ?_⟩
          · rw [foldZono_cons, hz1]
            exact hez
          · rw [foldCZono_cons, hc1]
            exact hec
        · right
          refine ⟨z2, cz2, ?_, ?_, hW2, hb2⟩
          · rw [foldZono_cons, hz1]
            exact hz2
          · rw [foldCZono_cons, hc1]
            exact hc2

theorem propagate_pair_eq (n : Network) (box : List (ℚ × ℚ))
    (ivs : List (ℚ × ℚ)) (z : Zonotope) (cz : CZonotope)
    (hz : n.propagate_zonotope box = .ok (ivs, z))
    (hcz : n.propagate_constrained_zonotope box .standard = .ok cz) :
    z.W = cz.W ∧ z.b = cz.b ∧ ivs = z.concretize := by
  have main : ∀ (ls : List Layer) (b1 : List (ℚ × ℚ)),
      (foldZono ls (abstract_to_zonotope b1)).map
        (fun z0 => (z0.concretize, z0)) = .ok (ivs, z) →
      foldCZono ls (abstract_to_constrained_zonotope b1) .standard = .ok cz →
      z.W = cz.W ∧ z.b = cz.b ∧ ivs = z.concretize := by
    intro ls b1 hz1 hc1
    rcases fold_standard_eq ls (abstract_to_zonotope b1)
        (abstract_to_constrained_zonotope b1) rfl rfl with
      ⟨e, hez, _⟩ | ⟨z1, cz1, hz2, hc2, hW2, hb2⟩
    · rw [hez] at hz1
      exact absurd hz1 (by simp [Except.map])
    · rw [hz2] at hz1
      rw [hc2] at hc1
      have h' : (Except.ok (z1.concretize, z1) :
          Except PyErr (List (ℚ × ℚ) × Zonotope)) = .ok (ivs, z) := hz1
      have hpair := Except.ok.inj h'
      have hzeq : z1 = z := congrArg Prod.snd hpair
      have hiveq : z1.concretize = ivs := congrArg Prod.fst hpair
      have hceq : cz1 = cz := Except.ok.inj hc1
      rw [← hzeq, ← hceq, ← hiveq]
      exact ⟨hW2, hb2, rfl⟩
  rw [Network.propagate_zonotope] at hz
  rw [Network.propagate_constrained_zonotope] at hcz
  cases hq : n.quantized with
  | false =>
      rw [hq] at hz hcz
      exact main n.layers box hz hcz
  | true =>
      rw [hq] at hz hcz
      cases hl : n.layers with
      | nil =>
          rw [hl] at hz
          have hz' : (Except.error PyErr.indexError :
              Except PyErr (List (ℚ × ℚ) × Zonotope)) = .ok (ivs, z) := hz
          exact absurd hz' (by simp)
      | cons L0 rest =>
          rw [hl] at hz hcz
          have hz' : (vertexPreprocess L0 box).bind (fun box1 =>
              (foldZono rest (abstract_to_zonotope box1)).map
                (fun z0 => (z0.concretize, z0))) = .ok (ivs, z) := hz
          have hcz' : (vertexPreprocess L0 box).bind (fun box1 =>
              foldCZono rest (abstract_to_constrained_zonotope box1) .standard) =
              .ok cz := hcz
          cases hvp : vertexPreprocess L0 box with
          | error e =>
              rw [hvp] at hz'
              exact absurd hz' (by simp [Except.bind])
          | ok box1 =>
              rw [hvp] at hz' hcz'
              exact main rest box1 hz' hcz' 

theorem dotF_le_absSum (r : List ℚ) (x : ℕ → ℚ)
    (h : ∀ i, i < r.length → -1 ≤ x i ∧ x i ≤ 1) :
    -absSum r ≤ dotF r x ∧ dotF r x ≤ absSum r := by
  induction r generalizing x with
  | nil => simp [dotF_nil, absSum]
  | cons a t ih =>
      have h0 := h 0 (by simp)
      have habs : |a * x 0| ≤ |a| := by
        rw [abs_mul]
        calc |a| * |x 0| ≤ |a| * 1 := by
              apply mul_le_mul_of_nonneg_left _ (abs_nonneg a)
              exact abs_le.2 ⟨h0.1, h0.2⟩
          _ = |a| := mul_one _
      have hax := abs_le.1 habs
      have ht := ih (fun i => x (i + 1)) (fun i hi => h (i + 1) (by simpa using hi))
      have hsum : absSum (a :: t) = |a| + absSum t := by simp [absSum]
      rw [dotF_cons, hsum]
      constructor <;> linarith [ht.1, ht.2, hax.1, hax.2]

/-- C4 (amended): tightness ordering for the `'standard'` encoding, under
the exact-solver model.  For every box and network on which both abstract
propagations succeed, the returned interval list is the zonotope's
concretization, the standard-encoding constrained zonotope has the same
generator and center as the plain zonotope, and its LP feasible set is a
subset of the unit box; hence whenever the two LP solves for an output
dimension return exact optima `lo` and `hi` (the feasible set being
nonempty), the interval `[lo, hi]` is contained in the zonotope's interval
and its width is at most the zonotope width.  (For the `'rectangle'`
encoding the ordering fails — see the counterexample.) -/
theorem C4_standard_width_ordering (n : Network) (box : List (ℚ × ℚ))
    (ivs : List (ℚ × ℚ)) (z : Zonotope) (cz : CZonotope) (i : ℕ) (lo hi : ℚ)
    (hz : n.propagate_zonotope box = .ok (ivs, z))
    (hcz : n.propagate_constrained_zonotope box .standard = .ok cz)
    (hlo : IsLeast (codeVals cz i) lo)
    (hhi : IsGreatest (codeVals cz i) hi) :
    ivs = z.concretize ∧
    zLower z i ≤ lo ∧ hi ≤ zUpper z i ∧ hi - lo ≤ zUpper z i - zLower z i := by
  obtain ⟨hWeq, hbeq, hiv⟩ := propagate_pair_eq n box ivs z cz hz hcz
  have hrect : ∀ row ∈ cz.W, row.length = matWidth cz.W :=
    propagateCZ_rect n box cz .standard hcz
  have hbound : ∀ v ∈ codeVals cz i, zLower z i ≤ v ∧ v ≤ zUpper z i := by
    rintro v ⟨x, ⟨hbox, _⟩, rfl⟩
    have hrow : ∀ j, j < (cz.W.getD i []).length → -1 ≤ x j ∧ x j ≤ 1 := by
      intro j hj
      apply hbox
      rcases lt_or_le i cz.W.length with hi' | hi'
      · have := hrect _ (getD_mem cz.W i [] hi')
        omega
      · rw [List.getD_eq_default _ _ (by omega)] at hj
        simp at hj
    have hd := dotF_le_absSum (cz.W.getD i []) x hrow
    have hL : zLower z i = cz.b.getD i 0 - absSum (cz.W.getD i []) := by
      rw [zLower, hWeq, hbeq]
    have hU : zUpper z i = cz.b.getD i 0 + absSum (cz.W.getD i []) := by
      rw [zUpper, hWeq, hbeq]
    rw [hL, hU, czObjective]
    constructor <;> linarith [hd.1, hd.2]
  have h1 := hbound lo hlo.1
  have h2 := hbound hi hhi.1
  exact ⟨hiv, h1.1, h2.2, by linarith [h1.1, h2.2]⟩

/-- C4 (witness): the width-ordering theorem at the one-layer identity
network `exN7` on the box `[(0, 2)]`, whose constrained zonotope `exCZ7`
has exact bounds `lo = 0`, `hi = 2`. -/
theorem C4_standard_width_ordering_instance :
    ([(0, 2)] : List (ℚ × ℚ)) = (⟨[[1]], [1]⟩ : Zonotope).concretize ∧
    zLower ⟨[[1]], [1]⟩ 0 ≤ 0 ∧ (2 : ℚ) ≤ zUpper ⟨[[1]], [1]⟩ 0 ∧
    (2 : ℚ) - 0 ≤ zUpper ⟨[[1]], [1]⟩ 0 - zLower ⟨[[1]], [1]⟩ 0 := by
  have hsc : solverConstraints exCZ7 = [] := rfl
  have hobj : ∀ x : ℕ → ℚ, czObjective exCZ7 0 x = x 0 + 1 := by
    intro x
    norm_num [czObjective, exCZ7, dotF_cons, dotF_nil]
  have hz : exN7.propagate_zonotope [(0, 2)] = .ok ([(0, 2)], ⟨[[1]], [1]⟩) := by
    norm_num [Network.propagate_zonotope, Except.map, exN7, mkLayer, truthyOpt,
      foldZono, List.foldlM, Layer.propagate_zonotope,
      Zonotope.linear_transformation, Zonotope.concretize, matMul, matVec,
      matWidth, dotL, addV, scaleV, abstract_to_zonotope, zLower, zUpper,
      absSum, basisRow, vecZeros, List.range_succ, abs_of_nonneg]
  have hcz : exN7.propagate_constrained_zonotope [(0, 2)] .standard = .ok exCZ7 := by
    norm_num [Network.propagate_constrained_zonotope, exN7, exCZ7, mkLayer,
      truthyOpt, foldCZono, List.foldlM, Layer.propagate_constrained_zonotope,
      CZonotope.linear_transformation, matMul, matVec, matWidth, dotL, addV,
      scaleV, abstract_to_constrained_zonotope, basisRow, vecZeros,
      List.range_succ, CZonotope.mk.injEq]
  have hlo : IsLeast (codeVals exCZ7 0) 0 := by
    constructor
    · refine ⟨fun _ => -1, ⟨?_, ?_⟩, ?_⟩
      · intro j hj
        norm_num
      · rw [hsc]
        intro p hp
        simp at hp
      · rw [hobj]
        norm_num
    · rintro v ⟨x, ⟨hbox, _⟩, rfl⟩
      have h0 := (hbox 0 (by norm_num [exCZ7, matWidth])).1
      rw [hobj]
      linarith
  have hhi : IsGreatest (codeVals exCZ7 0) 2 := by
    constructor
    · refine ⟨fun _ => 1, ⟨?_, ?_⟩, ?_⟩
      · intro j hj
        norm_num
      · rw [hsc]
        intro p hp
        simp at hp
      · rw [hobj]
        norm_num
    · rintro v ⟨x, ⟨hbox, _⟩, rfl⟩
      have h0 := (hbox 0 (by norm_num [exCZ7, matWidth])).2
      rw [hobj]
      linarith
  exact C4_standard_width_ordering exN7 [(0, 2)] [(0, 2)] ⟨[[1]], [1]⟩ exCZ7 0 0 2
    hz hcz hlo hhi

/-- C4 (counterexample): the tightness ordering fails for the `'rectangle'`
encoding.  On the two-layer network `exN4` (two identical ReLU neurons
followed by their difference) with box `[(-1, 3)]`, the zonotope output
interval is `[-3/4, 3/4]` (width `3/2`), while the rectangle-encoding
constrained zonotope `exCZ4` has exact optimal bounds `lo = -3`, `hi = 3`
(width `6`): the constrained-zonotope bound width exceeds the zonotope
width, even with an exact solver. -/
theorem C4_rectangle_wider_than_zonotope :
    Network.propagate_constrained_zonotope exN4 [(-1, 3)] .rectangle = .ok exCZ4 ∧
    Network.propagate_zonotope exN4 [(-1, 3)] =
      .ok ([(-3/4, 3/4)], ⟨[[0, 3/8, -3/8]], [0]⟩) ∧
    IsGreatest (codeVals exCZ4 0) 3 ∧ IsLeast (codeVals exCZ4 0) (-3) ∧
    ¬ ((3 : ℚ) - (-3) ≤ 3/4 - (-3/4)) := by
  have hsc : solverConstraints exCZ4 = List.replicate 4 ([3/2, 0, -3/2], 0) := rfl
  have hobj : ∀ x : ℕ → ℚ, czObjective exCZ4 0 x = 3/2 * x 1 + (-3/2) * x 2 := by
    intro x
    norm_num [czObjective, exCZ4, dotF_cons, dotF_nil]
  refine ⟨?_, ?_, ?_, ?_, by norm_num⟩
  · norm_num [Network.propagate_constrained_zonotope, exN4, exCZ4, mkLayer,
      Bind.bind, Except.bind, pure, Except.pure, List.replicate, List.headD,
      List.head?, List.zipWith, List.foldr, addV,
      truthyOpt, foldCZono, List.foldlM, Layer.propagate_constrained_zonotope,
      CZonotope.linear_transformation, CZonotope.abstract_ReLU, czReluRowAt,
      czReluBiasAt, czReluConsAt, matMul, matVec, matWidth, dotL, addV, subV,
      scaleV, negV, abstract_to_constrained_zonotope, czLower, czUpper, absSum,
      basisRow, vecZeros, List.range_succ, reluSlope, reluOffset,
      CZonotope.mk.injEq, abs_of_nonneg, abs_of_nonpos, Prod.mk.injEq]
  · norm_num [Network.propagate_zonotope, Except.map, exN4, mkLayer, truthyOpt,
      Bind.bind, Except.bind, pure, Except.pure, List.replicate, List.headD,
      List.head?, List.zipWith, List.foldr, addV,
      foldZono, List.foldlM, Layer.propagate_zonotope,
      Zonotope.linear_transformation, Zonotope.abstract_ReLU, zReluRow,
      zReluDiag, zReluBias, Zonotope.concretize, matMul, matVec, matWidth,
      dotL, addV, scaleV, abstract_to_zonotope, zLower, zUpper, absSum,
      basisRow, vecZeros, List.range_succ, reluSlope, reluOffset,
      Zonotope.mk.injEq, abs_of_nonneg, abs_of_nonpos, Prod.mk.injEq]
  · constructor
    · refine ⟨fun i => if i = 2 then -1 else 1, ⟨?_, ?_⟩, ?_⟩
      · intro j hj
        have hj3 : j < 3 := by simpa [exCZ4, matWidth] using hj
        interval_cases j <;> norm_num
      · intro p hp
        rw [hsc] at hp
        rw [List.eq_of_mem_replicate hp]
        norm_num [dotF_cons, dotF_nil]
      · rw [hobj]
        norm_num
    · rintro v ⟨x, ⟨hbox, _⟩, rfl⟩
      have h1 := hbox 1 (by norm_num [exCZ4, matWidth])
      have h2 := hbox 2 (by norm_num [exCZ4, matWidth])
      rw [hobj]
      linarith [h1.1, h1.2, h2.1, h2.2]
  · constructor
    · refine ⟨fun i => if i = 1 then -1 else 1, ⟨?_, ?_⟩, ?_⟩
      · intro j hj
        have hj3 : j < 3 := by simpa [exCZ4, matWidth] using hj
        interval_cases j <;> norm_num
      · intro p hp
        rw [hsc] at hp
        rw [List.eq_of_mem_replicate hp]
        norm_num [dotF_cons, dotF_nil]
      · rw [hobj]
        norm_num
    · rintro v ⟨x, ⟨hbox, _⟩, rfl⟩
      have h1 := hbox 1 (by norm_num [exCZ4, matWidth])
      have h2 := hbox 2 (by norm_num [exCZ4, matWidth])
      rw [hobj]
      linarith [h1.1, h1.2, h2.1, h2.2]
